import Mathlib

/-!
# Verification of `combine_data.py` (SWOT-Confluence/combine_data)

A shallow embedding of the core logic of `src/combine_data.py`:

* `load_continents`        — continent discovery from a directory listing,
* `combine_continents`     — merging per-continent JSON fragments,
* `create_basin_data`      — basin record derivation from merged reach ids,
* `parse_duplicate_files`  — duplicate resolution of object-storage listings,
* `sort_cycle_pass`        — natural-order key function for cycle/pass maps.

Python strings are embedded as `List Char` (`Str`).  File-system state is
embedded as an explicit directory listing: a list of base names, each paired
with the `Option`-valued parse result of its contents (`none` models a
`json.load` failure).  Exceptions (`KeyError`, `ValueError`, `IndexError`)
are modelled by `Option`: a raised exception is `none`.

The non-deterministic pieces of the Python runtime are determinized as
follows, documented at each definition:
* `glob.glob` enumeration order is the order of the modelled listing;
* `list(set(xs))` is modelled as first-occurrence deduplication
  (`dedupFirst`); every theorem that depends on this is stated so that the
  underlying fact is order-robust (set contents, membership, cardinality).

All recursive functions are written with explicit fuel or structural
recursion so that concrete instances evaluate inside the kernel.
-/

/-- Python strings, embedded as lists of characters. -/
abbrev Str := List Char

/-- `str.isdigit`-style test for a single ASCII character (the data handled
by the script is ASCII). -/
abbrev isDigitC (c : Char) : Bool := c.isDigit

/-- The characters that are special to `fnmatch`/`glob` patterns. -/
def globSpecial (c : Char) : Bool := c == '*' || c == '?' || c == '['

/-- Python `str.strip()` whitespace set (ASCII part). -/
def pySpace (c : Char) : Bool :=
  c == ' ' || c == '\t' || c == '\n' || c == '\r' || c == '\x0b' || c == '\x0c'

/-- Python `s.strip()`. -/
def stripSpaces (s : Str) : Str :=
  ((s.dropWhile pySpace).reverse.dropWhile pySpace).reverse

/-- Decimal value of a digit character. -/
def digitVal (c : Char) : Nat := c.toNat - 48

/-- Value of a digit string (used after validation). -/
def strToNat (s : Str) : Nat := s.foldl (fun a c => 10 * a + digitVal c) 0

/-- Validity of the digit part accepted by Python `int(...)`: non-empty,
decimal digits, with single underscores allowed strictly between digits. -/
def okDigits (ds : Str) : Bool :=
  !ds.isEmpty && ds.all (fun c => isDigitC c || c == '_') &&
  ds.head? != some '_' && ds.getLast? != some '_' &&
  (ds.zip ds.tail).all (fun p => !(p.1 == '_' && p.2 == '_'))

/-- Digit-part parsing of Python `int(...)` (after sign handling). -/
def pyDigitsVal (ds : Str) : Option Nat :=
  if okDigits ds then some (strToNat (ds.filter isDigitC)) else none

/-- Python `int(s)` for a decimal string: strips whitespace, accepts an
optional sign, then digits (underscores between digits); `none` models the
raised `ValueError`. -/
def pyInt (s : Str) : Option Int :=
  match stripSpaces s with
  | [] => none
  | c :: rest =>
    if c = '-' then (pyDigitsVal rest).map (fun n => -(n : Int))
    else if c = '+' then (pyDigitsVal rest).map (fun n => (n : Int))
    else (pyDigitsVal (c :: rest)).map (fun n => (n : Int))

/-- Fuelled decimal printing, `Nat.digitChar` of each digit, most
significant first; fuel `n + 1` always suffices. -/
def natCharsAux : Nat → Nat → Str
  | 0, _ => []
  | fuel + 1, n =>
    if n < 10 then [Nat.digitChar n]
    else natCharsAux fuel (n / 10) ++ [Nat.digitChar (n % 10)]

/-- Python `str(n)` for a non-negative integer. -/
def natChars (n : Nat) : Str := natCharsAux (n + 1) n

/-- Python `"{:02d}".format(m)`: zero-pad to (total) width 2. -/
def format02 (m : Int) : Str :=
  if m < 0 then '-' :: natChars m.natAbs
  else
    let s := natChars m.toNat
    List.replicate (2 - s.length) '0' ++ s

/-- First-occurrence deduplication: the determinization used for Python's
`list(set(xs))` (whose true order is hash-dependent). -/
def dedupFirstAux [DecidableEq α] : List α → List α → List α
  | [], _ => []
  | x :: xs, seen =>
    if x ∈ seen then dedupFirstAux xs seen else x :: dedupFirstAux xs (x :: seen)

/-- `list(set(xs))`, determinized to keep first occurrences in input order. -/
def dedupFirst [DecidableEq α] (l : List α) : List α := dedupFirstAux l []

/-- Python `max(l)` on a list (`none` models the `ValueError` on `[]`). -/
def pyMax : List Int → Option Int
  | [] => none
  | x :: xs => some (xs.foldl max x)

/-- `Option`-valued map over a list: `none` as soon as one element fails
(models a Python exception escaping a loop / comprehension). -/
def optMap (f : α → Option β) : List α → Option (List β)
  | [] => some []
  | a :: l => match f a with
    | none => none
    | some b => match optMap f l with
      | none => none
      | some bs => some (b :: bs)

/-- `Option`-valued left fold (models a Python loop whose body can raise). -/
def optFoldl (f : σ → α → Option σ) : σ → List α → Option σ
  | s, [] => some s
  | s, a :: l => match f s a with
    | none => none
    | some s' => optFoldl f s' l

/-- Python `s.split(sep)` for a one-character separator. -/
def splitOnChar (sep : Char) : Str → List Str
  | [] => [[]]
  | c :: rest =>
    match splitOnChar sep rest with
    | [] => [[c]]
    | h :: t => if c = sep then [] :: h :: t else (c :: h) :: t

/-- Fuelled Python `s.replace(pat, rep)`: left-to-right scan, non-overlapping
occurrences, scanning resumes after the replacement.  Fuel `s.length + 1`
suffices for a non-empty pattern (the only kind the script uses). -/
def replaceAllAux (pat rep : Str) : Nat → Str → Str
  | 0, s => s
  | _ + 1, [] => []
  | fuel + 1, c :: rest =>
    if pat.isPrefixOf (c :: rest) then
      rep ++ replaceAllAux pat rep fuel ((c :: rest).drop pat.length)
    else
      c :: replaceAllAux pat rep fuel rest

/-- Python `s.replace(pat, rep)` (non-empty `pat`; the script only replaces
the literals `".zip"`, `".json"` and `"_{continent}.json"`). -/
def replaceAll (s pat rep : Str) : Str := replaceAllAux pat rep (s.length + 1) s

/-!
## `fnmatch` / `glob` pattern matching

`fnmatch.filter` (POSIX `normcase` is the identity, so matching is
case-sensitive) and the per-component matching of `glob.glob` share this
semantics: `*` matches any run, `?` one character, `[...]`/`[!...]` a
character class (a `]` directly after `[` or `[!` is literal, `a-b` is a
range); an unterminated `[` is a literal character.  `glob.glob`
additionally hides names starting with a dot from `*` patterns, which is
modelled separately at each call site of `globMatch`.
-/

/-- Split a character class body: input is the text after `[`; returns
(negated, body, rest-after-`]`), or `none` for an unterminated class. -/
def classSplit (l : Str) : Option (Bool × Str × Str) :=
  let (neg, l') := match l with
    | '!' :: t => (true, t)
    | _ => (false, l)
  let (lead, l'') := match l' with
    | ']' :: t => (([']'] : Str), t)
    | _ => (([] : Str), l')
  match l''.takeWhile (· ≠ ']'), l''.dropWhile (· ≠ ']') with
  | _, [] => none
  | body, _ :: rest => some (neg, lead ++ body, rest)

/-- Membership of a character in a class body (with `a-b` ranges). -/
def memClass : Str → Char → Bool
  | [], _ => false
  | a :: '-' :: b :: rest, c => (a ≤ c && c ≤ b) || memClass rest c
  | a :: rest, c => a == c || memClass rest c

/-- Fuelled glob matcher; fuel `p.length + s.length + 1` always suffices
(each step consumes a pattern or subject character). -/
def globMatchAux : Nat → Str → Str → Bool
  | 0, _, _ => false
  | _ + 1, [], s => s.isEmpty
  | fuel + 1, pc :: ps, s =>
    if pc = '*' then
      globMatchAux fuel ps s ||
        (match s with
         | [] => false
         | _ :: s' => globMatchAux fuel (pc :: ps) s')
    else if pc = '?' then
      match s with
      | [] => false
      | _ :: s' => globMatchAux fuel ps s'
    else if pc = '[' then
      match classSplit ps with
      | none =>
        match s with
        | [] => false
        | c :: s' => pc == c && globMatchAux fuel ps s'
      | some (neg, body, rest) =>
        match s with
        | [] => false
        | c :: s' => (memClass body c != neg) && globMatchAux fuel rest s'
    else
      match s with
      | [] => false
      | c :: s' => pc == c && globMatchAux fuel ps s'

/-- `fnmatch.fnmatch pat s` (POSIX case behaviour). -/
def globMatch (pat s : Str) : Bool := globMatchAux (pat.length + s.length + 1) pat s

/-- `fnmatch.filter(names, pat)`: keeps input order. -/
def pyFnmatchFilter (names : List Str) (pat : Str) : List Str :=
  names.filter (fun n => globMatch pat n)

/-!
## `parse_duplicate_files` (src/combine_data.py, lines 411–433)

```python
parsed = []
for i in s3_urls:
    all_processings = fnmatch.filter(s3_urls, i[:-6]+'*')
    if len(all_processings) > 1:
        all_processings_nums = [int(i[-6:].replace('.zip', '')) for i in all_processings]
        padded_max = str("{:02d}".format(max(all_processings_nums)))
        max_path = fnmatch.filter(all_processings, f'*{padded_max}.zip')
        parsed.append(max_path[0])
        print('found a double', i)
    else:
        parsed.append(i)
parsed = list(set(parsed))
return parsed
```
`int(...)` can raise `ValueError` and `max_path[0]` can raise `IndexError`;
both are modelled by `none`.  The `print` is logging and is dropped.
-/

/-- One iteration of the `parse_duplicate_files` loop: the value appended to
`parsed` for input entry `i`, or `none` if the body raises. -/
def processEntry (s3_urls : List Str) (i : Str) : Option Str :=
  let all_processings := pyFnmatchFilter s3_urls ((i.take (i.length - 6)) ++ ['*'])
  if all_processings.length > 1 then
    (optMap (fun j => pyInt (replaceAll (j.drop (j.length - 6)) (".zip").data []))
        all_processings).bind fun nums =>
      (pyMax nums).bind fun mx =>
        (pyFnmatchFilter all_processings ('*' :: (format02 mx ++ (".zip").data))).head?
  else
    some i

/-- `parse_duplicate_files(s3_urls)`; the final `list(set(parsed))` is
determinized as `dedupFirst`. -/
def parse_duplicate_files (s3_urls : List Str) : Option (List Str) :=
  (optMap (processEntry s3_urls) s3_urls).map dedupFirst

/-!
## `combine_continents` (src/combine_data.py, lines 146–191)

```python
out_dict = {}
for continent in continents:
    if expanded:
        prefix = 'expanded_reaches_of_interest'
    else:
        prefix = ''
    all_continent_files = glob.glob(os.path.join(data_dir, f'{prefix}*{continent}*'))
    for continent_file in all_continent_files:
        with open(continent_file) as jf:
            data = json.load(jf)
        global_file_basename = os.path.basename(continent_file).replace(f'_{continent}.json', '')
        if global_file_basename not in list(out_dict.keys()):
            out_dict[global_file_basename] = []
        out_dict[global_file_basename].extend(data)
```
The directory is modelled as a listing of base names paired with the parse
result of their contents (`none` = `json.load` raises, aborting the run).
Fragment payloads are JSON arrays, abstracted as `List α`.  `glob.glob`
matches the pattern against the base name (the data directory itself
contains no pattern characters), skips names starting with `.`, and its
enumeration order is the listing order.  The trailing part of the Python
function only serializes `out_dict` to files, which is I/O and not
modelled. -/

/-- The glob pattern used for one continent. -/
def contPattern (expanded : Bool) (c : Str) : Str :=
  (if expanded then ("expanded_reaches_of_interest").data else []) ++ '*' :: (c ++ ['*'])

/-- Whether `glob.glob` lists a file for a continent's pattern. -/
def considered (expanded : Bool) (c : Str) (name : Str) : Bool :=
  name.head? != some '.' && globMatch (contPattern expanded c) name

/-- The accumulator key for one loaded file:
`name.replace(f'_{continent}.json', '')` (all occurrences). -/
def stripKey (c : Str) (name : Str) : Str :=
  replaceAll name ('_' :: (c ++ (".json").data)) []

/-- `out_dict[key].extend(data)`, with `out_dict` as an insertion-ordered
association list (Python dict semantics). -/
def dictExtend (d : List (Str × List α)) (k : Str) (v : List α) : List (Str × List α) :=
  match d with
  | [] => [(k, v)]
  | (k', v') :: rest =>
    if k' = k then (k', v' ++ v) :: rest else (k', v') :: dictExtend rest k v

/-- Python `dict` lookup on the association list. -/
def dictLookup (k : Str) : List (Str × List α) → Option (List α)
  | [] => none
  | (k', v) :: rest => if k' = k then some v else dictLookup k rest

/-- Body of the inner loop: load one file and extend the accumulator;
`none` when `json.load` raises. -/
def loadFile (c : Str) (acc : List (Str × List α)) (f : Str × Option (List α)) :
    Option (List (Str × List α)) :=
  match f.2 with
  | none => none
  | some data => some (dictExtend acc (stripKey c f.1) data)

/-- `combine_continents(continents, ...)` restricted to building `out_dict`;
`fs` is the directory listing. -/
def combineContinents (expanded : Bool) (continents : List Str)
    (fs : List (Str × Option (List α))) : Option (List (Str × List α)) :=
  optFoldl
    (fun acc c => optFoldl (loadFile c) acc (fs.filter (fun f => considered expanded c f.1)))
    [] continents

/-- The globally merged dataset for one name: run the merge, then look the
name up in the accumulator. -/
def combinedDataset (expanded : Bool) (continents : List Str)
    (fs : List (Str × Option (List α))) (k : Str) : Option (List α) :=
  match combineContinents expanded continents fs with
  | none => none
  | some d => dictLookup k d

/-!
## `load_continents` (src/combine_data.py, lines 68–103)

```python
if len(glob.glob(os.path.join(data_dir, '*'))) == 0:
    raise ValueError(...)
continent_dict = { "af": {"af": [1]}, "as": {"as": [4, 3]}, "eu": {"eu": [2]},
                   "na": {"na": [7, 8, 9]}, "oc": {"oc": [5]}, "sa": {"sa": [6]} }
all_conts = [ continent_dict[os.path.basename(i).split('_')[-1].replace('.json', '')]
              for i in glob.glob(os.path.join(data_dir, '*reaches*.json'))
              if os.path.basename(i).split('_')[-1].replace('.json', '') != 'interest']
...
return [list(i.keys())[0] for i in all_conts]
```
Each `continent_dict` value is a one-entry mapping, modelled as a pair
(code, raw region ids).  An unknown token raises `KeyError` (`none`).  The
`expanded` flag only renames the manifest file that is written out, and the
manifest write itself is I/O; neither affects the returned list. -/

/-- The fixed continent table. -/
def continent_dict (s : Str) : Option (Str × List Nat) :=
  if s = ("af").data then some (("af").data, [1])
  else if s = ("as").data then some (("as").data, [4, 3])
  else if s = ("eu").data then some (("eu").data, [2])
  else if s = ("na").data then some (("na").data, [7, 8, 9])
  else if s = ("oc").data then some (("oc").data, [5])
  else if s = ("sa").data then some (("sa").data, [6])
  else none

/-- The region token of a file name:
`basename.split('_')[-1].replace('.json', '')`. -/
def tokenOf (name : Str) : Str :=
  replaceAll ((splitOnChar '_' name).getLastD []) (".json").data []

/-- The tokens that discovery looks up: trailing tokens of the non-hidden
files matching `*reaches*.json`, with `'interest'` filtered out. -/
def discoveryTokens (files : List Str) : List Str :=
  ((files.filter (fun f =>
      f.head? != some '.' && globMatch (("*reaches*.json").data) f)).map tokenOf).filter
    (fun t => t ≠ ("interest").data)

/-- `load_continents`: `files` is the directory listing (base names).
`none` models the `ValueError` on an empty directory or the `KeyError` on a
token missing from `continent_dict`. -/
def load_continents (files : List Str) : Option (List Str) :=
  if (files.filter (fun f => f.head? != some '.')).isEmpty then none
  else
    match optMap continent_dict (discoveryTokens files) with
    | none => none
    | some all_conts => some (all_conts.map (fun p => p.1))

/-!
## `create_basin_data` (src/combine_data.py, lines 249–257)

```python
continent_codes = { '1': "af", '2': "eu", '3': "as", '4': "as", '5': "oc",
                    '6': "sa", '7': "na", '8': "na", '9': "na" }
return {
    "basin_id": basin_id,
    "reach_id": [reach_id for reach_id in base_reaches
                 if str(reach_id).startswith(str(basin_id))],
    "sword": f"{continent_codes[str(basin_id)[0]]}_sword_v{sword_version}.nc",
    "sos": f"{continent_codes[str(basin_id)[0]]}_sword_v{sword_version}_SOS_priors.nc"
}
```
A leading digit outside `1`–`9` raises `KeyError` (`none`). -/

/-- The leading-digit continent table of `create_basin_data` and
`parse_reach_list_for_output`. -/
def continent_codes (c : Char) : Option Str :=
  if c = '1' then some (("af").data)
  else if c = '2' then some (("eu").data)
  else if c = '3' then some (("as").data)
  else if c = '4' then some (("as").data)
  else if c = '5' then some (("oc").data)
  else if c = '6' then some (("sa").data)
  else if c = '7' then some (("na").data)
  else if c = '8' then some (("na").data)
  else if c = '9' then some (("na").data)
  else none

/-- The record returned by `create_basin_data`. -/
structure BasinData where
  basin_id : Nat
  reach_id : List Nat
  sword : Str
  sos : Str
deriving DecidableEq

/-- `create_basin_data(basin_id, base_reaches, sword_version)`. -/
def create_basin_data (basin_id : Nat) (base_reaches : List Nat)
    (sword_version : Str) : Option BasinData :=
  match continent_codes ((natChars basin_id).headD ' ') with
  | none => none
  | some cc =>
    some
      { basin_id := basin_id
        reach_id := base_reaches.filter
          (fun reach_id => (natChars basin_id).isPrefixOf (natChars reach_id))
        sword := cc ++ ("_sword_v").data ++ sword_version ++ (".nc").data
        sos := cc ++ ("_sword_v").data ++ sword_version ++ ("_SOS_priors.nc").data }

/-- The basin ids derived from the merged reach list by the driver
(src/combine_data.py, line 241):
`set(map(lambda x: int(str(x)[0:4]), base_reaches))`, determinized to
first-occurrence order. -/
def basin_ids (base_reaches : List Nat) : List Nat :=
  dedupFirst (base_reaches.map (fun r => strToNat ((natChars r).take 4)))

/-!
## `sort_cycle_pass` (src/combine_data.py, lines 346–352)

```python
def strtoi(text):
    return int(text) if text.isdigit() else text

def sort_cycle_pass(cycle_pass):
    return [ strtoi(cp) for cp in re.split(r'(\d+)', cycle_pass[0]) ]
```
`re.split(r'(\d+)', s)` splits on maximal digit runs and keeps them: the
result alternates (possibly empty) non-digit chunks with non-empty digit
chunks, beginning and ending with a non-digit chunk.  The sort keys are the
resulting mixed `str`/`int` lists under Python's lexicographic list order;
`sorted` is stable. -/

/-- A Python sort-key element: a string chunk or an integer chunk. -/
inductive StrInt where
  | s (v : Str)
  | i (v : Nat)
deriving DecidableEq

/-- Fuelled `re.split(r'(\d+)', s)`; fuel `s.length + 1` suffices. -/
def splitDigitsAux : Nat → Str → List Str
  | 0, s => [s]
  | fuel + 1, s =>
    let nd := s.takeWhile (fun c => !isDigitC c)
    let t := s.dropWhile (fun c => !isDigitC c)
    match t with
    | [] => [nd]
    | _ :: _ => nd :: (t.takeWhile isDigitC) :: splitDigitsAux fuel (t.dropWhile isDigitC)

/-- `re.split(r'(\d+)', s)` (ASCII digits). -/
def splitDigits (s : Str) : List Str := splitDigitsAux (s.length + 1) s

/-- `strtoi(text)`: `int(text) if text.isdigit() else text`. -/
def strtoi (text : Str) : StrInt :=
  if !text.isEmpty && text.all isDigitC then .i (strToNat text) else .s text

/-- `sort_cycle_pass(cycle_pass)` — the key function applied to a dict item
`(key, value)`. -/
def sort_cycle_pass (cycle_pass : Str × α) : List StrInt :=
  (splitDigits cycle_pass.1).map strtoi

/-- Python `<` on strings: lexicographic by code point. -/
def strLt : Str → Str → Bool
  | [], [] => false
  | [], _ :: _ => true
  | _ :: _, [] => false
  | a :: as, b :: bs => if a = b then strLt as bs else decide (a.toNat < b.toNat)

/-- Python `<` on key elements; comparing an `int` with a `str` raises
`TypeError` (`none`).  (For keys produced by `sort_cycle_pass` the element
types always line up, so the error case is unreachable.) -/
def strIntLt : StrInt → StrInt → Option Bool
  | .i m, .i n => some (decide (m < n))
  | .s a, .s b => some (strLt a b)
  | _, _ => none

/-- Python `<` on lists of key elements: first position where elements
differ (by `==`, which is `False` across types) decides via `<`. -/
def keyListLt : List StrInt → List StrInt → Option Bool
  | [], [] => some false
  | [], _ :: _ => some true
  | _ :: _, [] => some false
  | a :: as, b :: bs => if a = b then keyListLt as bs else strIntLt a b

/-- Total comparator on cycle/pass keys (the `TypeError` case cannot arise,
see `sortCyclePassAlternates`). -/
def cpKeyLt (a b : Str) : Bool :=
  keyListLt (sort_cycle_pass (a, ())) (sort_cycle_pass (b, ())) == some true

/-- Stable insertion of `x` into `l`: placed before the first strictly
greater element, after equal ones (the stability rule of Python `sorted`). -/
def stableInsert (lt : α → α → Bool) (x : α) : List α → List α
  | [] => [x]
  | y :: ys => if lt x y then x :: y :: ys else y :: stableInsert lt x ys

/-- Stable sort (insertion sort) with a strict-less comparator: keys compare
equal keep their input order, the guarantee of Python `sorted`. -/
def stableSort (lt : α → α → Bool) : List α → List α
  | [] => []
  | x :: xs => stableInsert lt x (stableSort lt xs)

/-- `sorted(keys, key=sort_cycle_pass)` on a list of keys. -/
def sortedCyclePassKeys (keys : List Str) : List Str := stableSort cpKeyLt keys


/-!
## Spec-side notions for the duplicate resolver

`stripOf`/`counterOf` name the grouping prefix (`i[:-6]`) and the trailing
two-digit counter of a listing entry; `entryOk n` is the well-formedness
predicate used by the amended uniform-listing statements: length exactly
`n`, a two-digit counter followed by `.zip`, and a glob-metacharacter-free
prefix. -/

/-- The 6-character-stripped grouping prefix of an entry: `i[:-6]`. -/
def stripOf (e : Str) : Str := e.take (e.length - 6)

/-- The trailing two-digit counter of an entry, as a number. -/
def counterOf (e : Str) : Nat := strToNat ((e.drop (e.length - 6)).take 2)

/-- Shape of a well-formed entry's final six characters: two digits
followed by `.zip`. -/
def sfxOk : Str → Bool
  | [d₁, d₂, x₁, x₂, x₃, x₄] =>
    isDigitC d₁ && isDigitC d₂ && ([x₁, x₂, x₃, x₄] == (".zip").data)
  | _ => false

/-- Well-formedness of a listing entry for the uniform-listing statements:
length `n`, digit counter, `.zip` extension, metacharacter-free prefix. -/
def entryOk (n : Nat) (e : Str) : Bool :=
  (e.length == n) && sfxOk (e.drop (e.length - 6)) &&
  (e.take (e.length - 6)).all (fun ch => !globSpecial ch)
/-- Characters that are not the dot. -/
abbrev nonDot (ch : Char) : Bool := ch != '.'

/-- Executable substring test (used to state what `glob('*{c}*')` selects). -/
def isSubstr (c : Str) : Str → Bool
  | [] => c.isEmpty
  | d :: rest => c.isPrefixOf (d :: rest) || isSubstr c rest

/-- Alternating chunk structure produced by `re.split(r'(\d+)', s)`: a
(possibly empty) non-digit chunk, then non-empty digit chunks separated by
(possibly empty) non-digit chunks. -/
inductive AltChunks : List Str → Prop
  | last (nd : Str) : nd.all (fun c => !isDigitC c) = true → AltChunks [nd]
  | cons (nd d : Str) (rest : List Str) :
      nd.all (fun c => !isDigitC c) = true → d ≠ [] → d.all isDigitC = true →
      AltChunks rest → AltChunks (nd :: d :: rest)

/-! ## Basic character and digit lemmas -/

theorem char_eq_of_toNat_eq {c d : Char} (h : c.toNat = d.toNat) : c = d :=
  Char.ext (UInt32.ext h)

theorem toNat_bounds_of_isDigit {c : Char} (h : isDigitC c = true) :
    48 ≤ c.toNat ∧ c.toNat ≤ 57 := by
  simp [isDigitC, Char.isDigit] at h
  exact h

theorem digitChar_toNat {n : Nat} (h : n < 10) : (Nat.digitChar n).toNat = 48 + n := by
  interval_cases n <;> rfl

theorem isDigit_digitChar {n : Nat} (h : n < 10) : isDigitC (Nat.digitChar n) = true := by
  interval_cases n <;> decide

theorem digitChar_inj {m n : Nat} (hm : m < 10) (hn : n < 10)
    (h : Nat.digitChar m = Nat.digitChar n) : m = n := by
  have := congrArg Char.toNat h
  rw [digitChar_toNat hm, digitChar_toNat hn] at this
  omega

theorem digitVal_lt_ten {c : Char} (h : isDigitC c = true) : digitVal c < 10 := by
  have := toNat_bounds_of_isDigit h
  simp only [digitVal]
  omega

theorem digitChar_digitVal {c : Char} (h : isDigitC c = true) :
    Nat.digitChar (digitVal c) = c := by
  have hb := toNat_bounds_of_isDigit h
  apply char_eq_of_toNat_eq
  rw [digitChar_toNat (digitVal_lt_ten h)]
  simp only [digitVal]
  omega

theorem isDigit_not_special {c : Char} (h : isDigitC c = true) :
    c ≠ '-' ∧ c ≠ '+' ∧ c ≠ '_' ∧ c ≠ '.' ∧ pySpace c = false ∧ globSpecial c = false := by
  have hb := toNat_bounds_of_isDigit h
  refine ⟨?_, ?_, ?_, ?_, ?_, ?_⟩
  · rintro rfl; simp at hb
  · rintro rfl; simp at hb
  · rintro rfl; simp at hb
  · rintro rfl; simp at hb
  · simp only [pySpace, Bool.or_eq_false_iff, beq_eq_false_iff_ne, ne_eq]
    refine ⟨⟨⟨⟨⟨?_, ?_⟩, ?_⟩, ?_⟩, ?_⟩, ?_⟩ <;> (rintro rfl; simp at hb)
  · simp only [globSpecial, Bool.or_eq_false_iff, beq_eq_false_iff_ne, ne_eq]
    refine ⟨⟨?_, ?_⟩, ?_⟩ <;> (rintro rfl; simp at hb)

/-! ## `dedupFirst` lemmas -/

theorem dedupFirstAux_mem [DecidableEq α] {l seen : List α} {x : α} :
    x ∈ dedupFirstAux l seen ↔ x ∈ l ∧ x ∉ seen := by
  induction l generalizing seen with
  | nil => simp [dedupFirstAux]
  | cons a xs ih =>
    by_cases ha : a ∈ seen
    · simp only [dedupFirstAux, if_pos ha, ih, List.mem_cons]
      constructor
      · rintro ⟨hx, hs⟩; exact ⟨Or.inr hx, hs⟩
      · rintro ⟨hx | hx, hs⟩
        · exact absurd (hx ▸ ha) hs
        · exact ⟨hx, hs⟩
    · simp only [dedupFirstAux, if_neg ha, List.mem_cons, ih]
      constructor
      · rintro (rfl | ⟨hx, hs⟩)
        · exact ⟨Or.inl rfl, ha⟩
        · exact ⟨Or.inr hx, fun hc => hs (Or.inr hc)⟩
      · rintro ⟨rfl | hx, hs⟩
        · exact Or.inl rfl
        · by_cases hxa : x = a
          · exact Or.inl hxa
          · exact Or.inr ⟨hx, fun hc => (hc.elim hxa hs)⟩

theorem dedupFirst_mem [DecidableEq α] {l : List α} {x : α} :
    x ∈ dedupFirst l ↔ x ∈ l := by
  simp [dedupFirst, dedupFirstAux_mem]

theorem dedupFirstAux_nodup [DecidableEq α] (l seen : List α) :
    (dedupFirstAux l seen).Nodup := by
  induction l generalizing seen with
  | nil => simp [dedupFirstAux]
  | cons a xs ih =>
    by_cases ha : a ∈ seen
    · simpa [dedupFirstAux, if_pos ha] using ih seen
    · simp only [dedupFirstAux, if_neg ha, List.nodup_cons]
      refine ⟨fun hc => ?_, ih _⟩
      exact (dedupFirstAux_mem.mp hc).2 (List.mem_cons_self _ _)

theorem dedupFirst_nodup [DecidableEq α] (l : List α) : (dedupFirst l).Nodup :=
  dedupFirstAux_nodup l []

theorem dedupFirstAux_eq_self [DecidableEq α] {l seen : List α} (h : l.Nodup)
    (hd : ∀ x ∈ l, x ∉ seen) : dedupFirstAux l seen = l := by
  induction l generalizing seen with
  | nil => rfl
  | cons a xs ih =>
    have ha : a ∉ seen := hd a (List.mem_cons_self _ _)
    simp only [dedupFirstAux, if_neg ha]
    congr 1
    refine ih (List.nodup_cons.mp h).2 fun x hx => ?_
    intro hc
    rcases List.mem_cons.mp hc with rfl | hc'
    · exact (List.nodup_cons.mp h).1 hx
    · exact hd x (List.mem_cons_of_mem _ hx) hc'

theorem dedupFirst_eq_self [DecidableEq α] {l : List α} (h : l.Nodup) :
    dedupFirst l = l :=
  dedupFirstAux_eq_self h (by simp)

/-! ## `optMap` and `optFoldl` lemmas -/

theorem optMap_some_of {f : α → Option β} {g : α → β} {l : List α}
    (h : ∀ a ∈ l, f a = some (g a)) : optMap f l = some (l.map g) := by
  induction l with
  | nil => rfl
  | cons a xs ih =>
    simp only [optMap, h a (List.mem_cons_self _ _),
      ih fun x hx => h x (List.mem_cons_of_mem _ hx), List.map_cons]

theorem optMap_mem {f : α → Option β} {l : List α} {r : List β}
    (h : optMap f l = some r) : ∀ b ∈ r, ∃ a ∈ l, f a = some b := by
  induction l generalizing r with
  | nil =>
    simp only [optMap, Option.some.injEq] at h
    subst h; simp
  | cons a xs ih =>
    simp only [optMap] at h
    cases hfa : f a with
    | none => rw [hfa] at h; exact absurd h (by simp)
    | some b0 =>
      rw [hfa] at h
      cases hrest : optMap f xs with
      | none => rw [hrest] at h; exact absurd h (by simp)
      | some bs =>
        rw [hrest] at h
        simp only [Option.some.injEq] at h
        subst h
        intro b hb
        rcases List.mem_cons.mp hb with rfl | hb'
        · exact ⟨a, List.mem_cons_self _ _, hfa⟩
        · obtain ⟨a', ha', hfa'⟩ := ih hrest b hb'
          exact ⟨a', List.mem_cons_of_mem _ ha', hfa'⟩

theorem optMap_none_of_mem {f : α → Option β} {l : List α} {a : α}
    (ha : a ∈ l) (h : f a = none) : optMap f l = none := by
  induction l with
  | nil => simp at ha
  | cons x xs ih =>
    rcases List.mem_cons.mp ha with rfl | ha'
    · simp [optMap, h]
    · cases hfx : f x with
      | none => simp [optMap, hfx]
      | some b => simp [optMap, hfx, ih ha']

theorem optMap_some_forall {f : α → Option β} {l : List α} {r : List β}
    (h : optMap f l = some r) : ∀ a ∈ l, ∃ b, f a = some b := by
  intro a ha
  cases hfa : f a with
  | none => rw [optMap_none_of_mem ha hfa] at h; exact absurd h (by simp)
  | some b => exact ⟨b, rfl⟩

theorem optFoldl_none_of_mem {f : σ → α → Option σ} {l : List α} {a : α}
    (ha : a ∈ l) (h : ∀ s, f s a = none) : ∀ s, optFoldl f s l = none := by
  induction l with
  | nil => simp at ha
  | cons x xs ih =>
    intro s
    rcases List.mem_cons.mp ha with rfl | ha'
    · simp [optFoldl, h s]
    · cases hfx : f s x with
      | none => simp [optFoldl, hfx]
      | some s' => simp [optFoldl, hfx, ih ha' s']

/-! ## Glob-pattern lemmas

The script only builds patterns of three shapes — `prefix*`, `*suffix` and
`*infix*` — out of metacharacter-free text.  These lemmas characterize
`globMatch` on those shapes. -/

theorem notSpecial_iff {c : Char} :
    globSpecial c = false ↔ (c ≠ '*' ∧ c ≠ '?' ∧ c ≠ '[') := by
  simp only [globSpecial, Bool.or_eq_false_iff, beq_eq_false_iff_ne, ne_eq]
  tauto

theorem isPrefixOf_iff_exists {p s : Str} :
    p.isPrefixOf s = true ↔ ∃ t, p ++ t = s := by
  induction p generalizing s with
  | nil => simp [List.isPrefixOf]
  | cons a as ih =>
    cases s with
    | nil => simp [List.isPrefixOf]
    | cons b bs =>
      simp only [List.isPrefixOf, Bool.and_eq_true, beq_iff_eq, ih, List.cons_append,
        List.cons.injEq]
      constructor
      · rintro ⟨rfl, t, rfl⟩; exact ⟨t, rfl, rfl⟩
      · rintro ⟨t, rfl, rfl⟩; exact ⟨rfl, t, rfl⟩

/-- Unfolding of the matcher at a `*`. -/
theorem globMatchAux_star (f : Nat) (ps s : Str) :
    globMatchAux (f + 1) ('*' :: ps) s =
      (globMatchAux f ps s ||
        match s with
        | [] => false
        | _ :: s' => globMatchAux f ('*' :: ps) s') := by
  simp [globMatchAux]

/-- Unfolding of the matcher at a literal (non-special) pattern character. -/
theorem globMatchAux_lit (f : Nat) {pc : Char} (h1 : pc ≠ '*') (h2 : pc ≠ '?')
    (h3 : pc ≠ '[') (ps s : Str) :
    globMatchAux (f + 1) (pc :: ps) s =
      (match s with
       | [] => false
       | c :: s' => pc == c && globMatchAux f ps s') := by
  simp [globMatchAux, h1, h2, h3]

theorem globStarAll {s : Str} : ∀ {fuel : Nat}, s.length + 2 ≤ fuel →
    globMatchAux fuel ['*'] s = true := by
  induction s with
  | nil =>
    intro fuel hf
    cases fuel with
    | zero => omega
    | succ f =>
      rw [globMatchAux_star]
      cases f with
      | zero => omega
      | succ f' => simp [globMatchAux]
  | cons c s' ih =>
    intro fuel hf
    cases fuel with
    | zero => omega
    | succ f =>
      rw [globMatchAux_star]
      have hb : s'.length + 2 ≤ f := by
        simp only [List.length_cons] at hf; omega
      simp [ih hb]

theorem globLit {lit : Str} (hl : lit.all (fun c => !globSpecial c) = true) :
    ∀ {s : Str} {fuel : Nat}, lit.length + s.length + 1 ≤ fuel →
    (globMatchAux fuel lit s = true ↔ lit = s) := by
  induction lit with
  | nil =>
    intro s fuel hf
    cases fuel with
    | zero => omega
    | succ f => cases s <;> simp [globMatchAux]
  | cons c lit' ih =>
    intro s fuel hf
    simp only [List.all_cons, Bool.and_eq_true, Bool.not_eq_true'] at hl
    obtain ⟨hcs, hrest⟩ := hl
    obtain ⟨hc1, hc2, hc3⟩ := notSpecial_iff.mp hcs
    cases fuel with
    | zero => simp only [List.length_cons] at hf; omega
    | succ f =>
      rw [globMatchAux_lit f hc1 hc2 hc3]
      cases s with
      | nil => simp
      | cons d s' =>
        have hfl : lit'.length + s'.length + 1 ≤ f := by
          simp only [List.length_cons] at hf; omega
        simp only [Bool.and_eq_true, beq_iff_eq, ih hrest hfl, List.cons.injEq]

theorem globPfx {p : Str} (hp : p.all (fun c => !globSpecial c) = true) :
    ∀ {s : Str} {fuel : Nat}, p.length + s.length + 2 ≤ fuel →
    (globMatchAux fuel (p ++ ['*']) s = true ↔ ∃ t, p ++ t = s) := by
  induction p with
  | nil =>
    intro s fuel hf
    simp only [List.nil_append]
    rw [globStarAll (by simpa using hf)]
    simp
  | cons c p' ih =>
    intro s fuel hf
    simp only [List.all_cons, Bool.and_eq_true, Bool.not_eq_true'] at hp
    obtain ⟨hcs, hrest⟩ := hp
    obtain ⟨hc1, hc2, hc3⟩ := notSpecial_iff.mp hcs
    cases fuel with
    | zero => simp only [List.length_cons] at hf; omega
    | succ f =>
      rw [List.cons_append, globMatchAux_lit f hc1 hc2 hc3]
      cases s with
      | nil => simp
      | cons d s' =>
        have hfl : p'.length + s'.length + 2 ≤ f := by
          simp only [List.length_cons] at hf; omega
        simp only [Bool.and_eq_true, beq_iff_eq, ih hrest hfl, List.cons_append,
          List.cons.injEq]
        constructor
        · rintro ⟨rfl, t, rfl⟩; exact ⟨t, rfl, rfl⟩
        · rintro ⟨t, rfl, rfl⟩; exact ⟨rfl, t, rfl⟩

theorem globSfx {lit : Str} (hl : lit.all (fun c => !globSpecial c) = true) :
    ∀ {s : Str} {fuel : Nat}, lit.length + s.length + 2 ≤ fuel →
    (globMatchAux fuel ('*' :: lit) s = true ↔ ∃ t, t ++ lit = s) := by
  intro s
  induction s with
  | nil =>
    intro fuel hf
    cases fuel with
    | zero => omega
    | succ f =>
      rw [globMatchAux_star]
      simp only [Bool.or_eq_true]
      rw [globLit hl (by simp only [List.length_nil] at hf ⊢; omega)]
      constructor
      · rintro (rfl | h)
        · exact ⟨[], rfl⟩
        · exact absurd h (by simp)
      · rintro ⟨t, ht⟩
        left
        have hlen := congrArg List.length ht
        simp only [List.length_append, List.length_nil] at hlen
        exact List.eq_nil_of_length_eq_zero (by omega)
  | cons d s' ih =>
    intro fuel hf
    cases fuel with
    | zero => simp only [List.length_cons] at hf; omega
    | succ f =>
      have hb1 : lit.length + (d :: s').length + 1 ≤ f := by
        simp only [List.length_cons] at hf ⊢; omega
      have hb2 : lit.length + s'.length + 2 ≤ f := by
        simp only [List.length_cons] at hf; omega
      rw [globMatchAux_star]
      simp only [Bool.or_eq_true]
      rw [globLit hl hb1, ih hb2]
      constructor
      · rintro (rfl | ⟨t, rfl⟩)
        · exact ⟨[], rfl⟩
        · exact ⟨d :: t, rfl⟩
      · rintro ⟨t, ht⟩
        cases t with
        | nil => exact Or.inl (by simpa using ht)
        | cons t0 ts =>
          simp only [List.cons_append, List.cons.injEq] at ht
          exact Or.inr ⟨ts, ht.2⟩

theorem globInf {c : Str} (hc : c.all (fun x => !globSpecial x) = true) :
    ∀ {s : Str} {fuel : Nat}, c.length + s.length + 3 ≤ fuel →
    (globMatchAux fuel ('*' :: (c ++ ['*'])) s = true ↔ ∃ u v, u ++ c ++ v = s) := by
  intro s
  induction s with
  | nil =>
    intro fuel hf
    cases fuel with
    | zero => omega
    | succ f =>
      rw [globMatchAux_star]
      simp only [Bool.or_eq_true]
      rw [globPfx hc (by simp only [List.length_nil] at hf ⊢; omega)]
      constructor
      · rintro (⟨t, ht⟩ | h)
        · exact ⟨[], t, by simpa using ht⟩
        · exact absurd h (by simp)
      · rintro ⟨u, v, huv⟩
        left
        have hlen := congrArg List.length huv
        simp only [List.length_append, List.length_nil] at hlen
        have hu : u = [] := List.eq_nil_of_length_eq_zero (by omega)
        subst hu
        exact ⟨v, by simpa using huv⟩
  | cons d s' ih =>
    intro fuel hf
    cases fuel with
    | zero => simp only [List.length_cons] at hf; omega
    | succ f =>
      have hb1 : c.length + (d :: s').length + 2 ≤ f := by
        simp only [List.length_cons] at hf ⊢; omega
      have hb2 : c.length + s'.length + 3 ≤ f := by
        simp only [List.length_cons] at hf; omega
      rw [globMatchAux_star]
      simp only [Bool.or_eq_true]
      rw [globPfx hc hb1, ih hb2]
      constructor
      · rintro (⟨t, ht⟩ | ⟨u, v, rfl⟩)
        · exact ⟨[], t, by simpa using ht⟩
        · exact ⟨d :: u, v, rfl⟩
      · rintro ⟨u, v, huv⟩
        cases u with
        | nil => exact Or.inl ⟨v, by simpa using huv⟩
        | cons u0 us =>
          simp only [List.cons_append, List.cons.injEq] at huv
          exact Or.inr ⟨us, v, by simp [huv.2]⟩

/-- `globMatch` of a `prefix*` pattern is the `startswith` test. -/
theorem globMatch_pfx {p s : Str} (hp : p.all (fun c => !globSpecial c) = true) :
    globMatch (p ++ ['*']) s = p.isPrefixOf s := by
  have h1 := @globPfx p hp s ((p ++ ['*']).length + s.length + 1)
    (by simp only [List.length_append, List.length_cons, List.length_nil]; omega)
  rw [show (∃ t, p ++ t = s) ↔ p.isPrefixOf s = true from isPrefixOf_iff_exists.symm] at h1
  simp only [globMatch]
  cases hb : List.isPrefixOf p s
  · exact Bool.eq_false_iff.mpr fun hc => by
      rw [h1.mp hc] at hb
      exact Bool.false_ne_true hb.symm
  · exact h1.mpr hb

/-- `globMatch` of a `*suffix` pattern is the `endswith` test. -/
theorem globMatch_sfx {lit s : Str} (hl : lit.all (fun c => !globSpecial c) = true) :
    globMatch ('*' :: lit) s = true ↔ ∃ t, t ++ lit = s :=
  globSfx hl (by simp only [globMatch, List.length_cons]; omega)

/-- `globMatch` of a `*infix*` pattern is the substring test. -/
theorem globMatch_inf {c s : Str} (hc : c.all (fun x => !globSpecial x) = true) :
    globMatch ('*' :: (c ++ ['*'])) s = true ↔ ∃ u v, u ++ c ++ v = s := by
  refine globInf hc ?_
  simp only [globMatch, List.length_cons, List.length_append, List.length_nil]
  omega

/-! ## `replaceAll` lemmas

The merger's key-stripping `name.replace(f'_{continent}.json', '')` is
analysed through two scan lemmas (`replaceAll_noMatch`,
`replaceAll_clean_sfx`) and a characterization of where a pattern
`_{c}.json` can match inside a name `k_{c'}.json`, driven by the segment
before the first dot. -/

theorem all_nonDot_of {x : Str} (h : '.' ∉ x) : x.all nonDot = true := by
  rw [List.all_eq_true]
  intro c hc
  simp only [nonDot, bne_iff_ne, ne_eq]
  rintro rfl
  exact h hc

theorem takeWhile_append_all {p : Char → Bool} {x : Str} (hx : x.all p = true) (y : Str) :
    (x ++ y).takeWhile p = x ++ y.takeWhile p := by
  induction x with
  | nil => simp
  | cons c xs ih =>
    simp only [List.all_cons, Bool.and_eq_true] at hx
    simp [List.takeWhile_cons, hx.1, ih hx.2]

/-- The text before the first dot of `_{c}.json…` is `_{c}`. -/
theorem tw_pat {c : Str} (hc : '.' ∉ c) (T : Str) :
    ('_' :: (c ++ '.' :: T)).takeWhile nonDot = '_' :: c := by
  rw [List.takeWhile_cons]
  simp only [show nonDot '_' = true from rfl, if_pos]
  rw [takeWhile_append_all (all_nonDot_of hc)]
  simp [List.takeWhile_cons]

/-- If `_{c}.json` matches at a dot-free offset `w` ahead of `_{c'}.json`,
the offset is empty and the continents coincide (uses `'_' ∉ c`). -/
theorem pat_match_forces {c c' w : Str} (hc : '.' ∉ c) (hc' : '.' ∉ c')
    (hu : '_' ∉ c) (hw : '.' ∉ w)
    (h : (('_' :: (c ++ '.' :: ("json").data))).isPrefixOf
      (w ++ '_' :: (c' ++ '.' :: ("json").data)) = true) : w = [] ∧ c = c' := by
  obtain ⟨r, hr⟩ := isPrefixOf_iff_exists.mp h
  have htw := congrArg (List.takeWhile nonDot) hr
  rw [show ('_' :: (c ++ '.' :: ("json").data)) ++ r
      = '_' :: (c ++ '.' :: (("json").data ++ r)) by simp] at htw
  rw [tw_pat hc, takeWhile_append_all (all_nonDot_of hw), tw_pat hc'] at htw
  cases w with
  | nil =>
    simp only [List.nil_append, List.cons.injEq] at htw
    exact ⟨rfl, htw.2⟩
  | cons w0 ws =>
    simp only [List.cons_append, List.cons.injEq] at htw
    exfalso
    apply hu
    rw [htw.2]
    exact List.mem_append_right _ (List.mem_cons_self _ _)

/-- `_{c}.json` never matches strictly inside the tail `{c'}.json` of a
file name (uses `'_' ∉ c'`). -/
theorem pat_noMatch_interior {c c' t : Str} (hc : '.' ∉ c) (hc' : '.' ∉ c')
    (hu' : '_' ∉ c')
    (ht : ∃ w, w ++ t = c' ++ '.' :: ("json").data) :
    (('_' :: (c ++ '.' :: ("json").data))).isPrefixOf t = false := by
  obtain ⟨w, hw⟩ := ht
  cases hb : (('_' :: (c ++ '.' :: ("json").data))).isPrefixOf t
  · rfl
  exfalso
  obtain ⟨r, hr⟩ := isPrefixOf_iff_exists.mp hb
  by_cases hlen : w.length ≤ c'.length
  · -- t starts inside `c'`: its dot-free head is a suffix of `c'`
    have hw1 : w = c'.take w.length := by
      have h1 := congrArg (List.take w.length) hw
      rw [List.take_append_eq_append_take, List.take_length, Nat.sub_self, List.take_zero,
        List.append_nil, List.take_append_eq_append_take,
        show w.length - c'.length = 0 from by omega, List.take_zero, List.append_nil] at h1
      exact h1
    have ht2 : t = c'.drop w.length ++ '.' :: ("json").data := by
      have h2 : w ++ t = w ++ (c'.drop w.length ++ '.' :: ("json").data) := by
        rw [hw]
        conv_lhs => rw [← List.take_append_drop w.length c']
        rw [← hw1, List.append_assoc]
      exact List.append_cancel_left h2
    have hd : '.' ∉ c'.drop w.length := fun hm => hc' (List.drop_subset _ _ hm)
    have hdu : '_' ∉ c'.drop w.length := fun hm => hu' (List.drop_subset _ _ hm)
    have htw := congrArg (List.takeWhile nonDot) (hr.trans ht2)
    rw [show ('_' :: (c ++ '.' :: ("json").data)) ++ r
        = '_' :: (c ++ '.' :: (("json").data ++ r)) by simp] at htw
    rw [tw_pat hc, takeWhile_append_all (all_nonDot_of hd)] at htw
    rw [show (('.' :: ("json").data).takeWhile nonDot) = [] from rfl,
      List.append_nil] at htw
    apply hdu
    rw [← htw]
    exact List.mem_cons_self _ _
  · -- t lies inside `.json`: too short for the pattern
    have hlw := congrArg List.length hw
    simp only [List.length_append, List.length_cons] at hlw
    have hlr := congrArg List.length hr
    simp only [List.length_append, List.length_cons] at hlr
    have hJ : ("json").data.length = 4 := rfl
    omega


theorem cons_isPrefixOf_nil {c : Char} {l : Str} :
    (c :: l).isPrefixOf ([] : Str) = false := rfl

/-- Scan lemma: if the pattern matches at no position, `replace` is the
identity. -/
theorem replaceAllAux_noMatch {pat rep : Str} :
    ∀ (s : Str) {fuel : Nat}, s.length + 1 ≤ fuel →
    (∀ u v, u ++ v = s → pat.isPrefixOf v = false) →
    replaceAllAux pat rep fuel s = s := by
  intro s
  induction s with
  | nil =>
    intro fuel hf _
    cases fuel with
    | zero => omega
    | succ f => rfl
  | cons c rest ih =>
    intro fuel hf h
    cases fuel with
    | zero => simp only [List.length_cons] at hf; omega
    | succ f =>
      simp only [replaceAllAux, h [] (c :: rest) rfl]
      simp only [Bool.false_eq_true, if_false, List.cons.injEq, true_and]
      refine ih (by simp only [List.length_cons] at hf; omega) fun u v huv => ?_
      exact h (c :: u) v (by simp [huv])

theorem replaceAll_noMatch {pat rep s : Str}
    (h : ∀ u v, u ++ v = s → pat.isPrefixOf v = false) :
    replaceAll s pat rep = s :=
  replaceAllAux_noMatch s (by omega) h

/-- Scan lemma: a pattern occurring exactly once, as the final segment, is
stripped and the scan ends; the head segment survives unchanged. -/
theorem replaceAllAux_clean_sfx {pat : Str} (hpne : pat ≠ []) :
    ∀ (a : Str) {fuel : Nat}, a.length + pat.length + 1 ≤ fuel →
    (∀ u v, u ++ v = a → v ≠ [] → pat.isPrefixOf (v ++ pat) = false) →
    replaceAllAux pat [] fuel (a ++ pat) = a := by
  intro a
  induction a with
  | nil =>
    intro fuel hf _
    cases fuel with
    | zero => omega
    | succ f =>
      simp only [List.nil_append]
      have hpp : pat.isPrefixOf pat = true := isPrefixOf_iff_exists.mpr ⟨[], by simp⟩
      cases hp : pat with
      | nil => exact absurd hp hpne
      | cons p0 pr =>
        rw [hp] at hpp
        simp only [hp, replaceAllAux, hpp, if_true, List.nil_append]
        rw [show (p0 :: pr).drop (p0 :: pr).length = [] from List.drop_length _]
        have hfp : pr.length + 2 ≤ f + 1 := by
          simp only [List.length_nil, hp, List.length_cons] at hf; omega
        cases f with
        | zero => omega
        | succ f' => rfl
  | cons c a' ih =>
    intro fuel hf h
    cases fuel with
    | zero => simp only [List.length_cons] at hf; omega
    | succ f =>
      have hno : pat.isPrefixOf ((c :: a') ++ pat) = false :=
        h [] (c :: a') rfl (by simp)
      simp only [List.cons_append] at hno ⊢
      simp only [replaceAllAux, hno, Bool.false_eq_true, if_false, List.cons.injEq, true_and]
      refine ih (by simp only [List.length_cons] at hf; omega) fun u v huv hv => ?_
      exact h (c :: u) v (by simp [huv]) hv

theorem replaceAll_clean_sfx {pat a : Str} (hpne : pat ≠ [])
    (h : ∀ u v, u ++ v = a → v ≠ [] → pat.isPrefixOf (v ++ pat) = false) :
    replaceAll (a ++ pat) pat [] = a :=
  replaceAllAux_clean_sfx hpne a
    (by simp only [List.length_append]; omega) h

/-- Stripping a file's own continent suffix pattern yields the dataset
name: `f'{k}_{c}.json'.replace(f'_{c}.json', '') = k`. -/
theorem stripKey_own {k c : Str} (hk : '.' ∉ k) (hc : '.' ∉ c) (hu : '_' ∉ c) :
    stripKey c (k ++ '_' :: (c ++ (".json").data)) = k := by
  have hdot : (".json").data = '.' :: ("json").data := rfl
  rw [stripKey, hdot]
  apply replaceAll_clean_sfx (by simp)
  intro u v huv hv
  cases hm : (('_' :: (c ++ '.' :: ("json").data))).isPrefixOf
      (v ++ '_' :: (c ++ '.' :: ("json").data))
  · rfl
  · exfalso
    have hvk : '.' ∉ v := fun hm' => hk (huv ▸ List.mem_append_right u hm')
    exact hv (pat_match_forces hc hc hu hvk hm).1

/-- Stripping a *different* continent's suffix pattern leaves the file name
unchanged: the pattern `_{c}.json` does not occur in `f'{k}_{c'}.json'`. -/
theorem stripKey_other {k c c' : Str} (hk : '.' ∉ k) (hc : '.' ∉ c) (hc' : '.' ∉ c')
    (hu : '_' ∉ c) (hu' : '_' ∉ c') (hne : c ≠ c') :
    stripKey c (k ++ '_' :: (c' ++ (".json").data)) = k ++ '_' :: (c' ++ (".json").data) := by
  have hdot : (".json").data = '.' :: ("json").data := rfl
  rw [stripKey, hdot]
  apply replaceAll_noMatch
  intro u v huv
  have hvdrop : v = (k ++ '_' :: (c' ++ '.' :: ("json").data)).drop u.length := by
    rw [← huv, List.drop_append_eq_append_drop, List.drop_length, Nat.sub_self,
      List.drop_zero]
    simp
  by_cases hlen : u.length ≤ k.length
  · -- the candidate position is inside `k`
    rw [List.drop_append_eq_append_drop,
      show u.length - k.length = 0 from by omega, List.drop_zero] at hvdrop
    cases hm : (('_' :: (c ++ '.' :: ("json").data))).isPrefixOf v
    · rfl
    · exfalso
      rw [hvdrop] at hm
      have hwk : '.' ∉ k.drop u.length := fun hm' => hk (List.drop_subset _ _ hm')
      exact hne (pat_match_forces hc hc' hu hwk hm).2
  · -- the candidate position is inside the `_{c'}.json` tail
    rw [List.drop_append_eq_append_drop,
      show k.drop u.length = [] from by
        apply List.drop_eq_nil_of_le; omega,
      List.nil_append] at hvdrop
    obtain ⟨m, hm'⟩ : ∃ m, u.length - k.length = m + 1 := ⟨u.length - k.length - 1, by omega⟩
    rw [hm', List.drop_succ_cons] at hvdrop
    apply pat_noMatch_interior hc hc' hu'
    exact ⟨(c' ++ '.' :: ("json").data).take m, by rw [hvdrop, List.take_append_drop]⟩

/-! ## Merger lemmas -/

theorem isSubstr_iff {c s : Str} : isSubstr c s = true ↔ ∃ u v, u ++ c ++ v = s := by
  induction s with
  | nil =>
    simp only [isSubstr, List.isEmpty_iff]
    constructor
    · rintro rfl; exact ⟨[], [], rfl⟩
    · rintro ⟨u, v, huv⟩
      have := congrArg List.length huv
      simp only [List.length_append, List.length_nil] at this
      exact List.eq_nil_of_length_eq_zero (by omega)
  | cons d rest ih =>
    simp only [isSubstr, Bool.or_eq_true, isPrefixOf_iff_exists, ih]
    constructor
    · rintro (⟨t, ht⟩ | ⟨u, v, rfl⟩)
      · exact ⟨[], t, by simpa using ht⟩
      · exact ⟨d :: u, v, rfl⟩
    · rintro ⟨u, v, huv⟩
      cases u with
      | nil => exact Or.inl ⟨v, by simpa using huv⟩
      | cons u0 us =>
        simp only [List.cons_append, List.cons.injEq] at huv
        exact Or.inr ⟨us, v, by simp [huv.2]⟩

theorem bool_eq_of_iff {a b : Bool} (h : a = true ↔ b = true) : a = b := by
  cases a <;> cases b <;> simp_all

/-- For a metacharacter-free continent code, `glob.glob(f'*{c}*')` selects
exactly the non-hidden names containing `c` as a substring. -/
theorem considered_eq {c name : Str} (hc : c.all (fun x => !globSpecial x) = true) :
    considered false c name = (name.head? != some '.' && isSubstr c name) := by
  have hpat : contPattern false c = '*' :: (c ++ ['*']) := rfl
  simp only [considered, hpat]
  congr 1
  exact bool_eq_of_iff (by rw [globMatch_inf hc, isSubstr_iff])

/-- A loop over loaded files with every parse succeeding is the plain fold. -/
theorem loadFiles_all_some {c : Str} {files : List (Str × Option (List α))}
    (h : ∀ f ∈ files, f.2 ≠ none) :
    ∀ acc, optFoldl (loadFile c) acc files =
      some (files.foldl (fun a f => dictExtend a (stripKey c f.1) (f.2.getD [])) acc) := by
  induction files with
  | nil => intro acc; rfl
  | cons f fs ih =>
    intro acc
    cases hf : f.2 with
    | none => exact absurd hf (h f (List.mem_cons_self _ _))
    | some d =>
      simp only [optFoldl, loadFile, hf, List.foldl_cons, Option.getD_some]
      exact ih (fun g hg => h g (List.mem_cons_of_mem _ hg)) _

/-- A successful loop over loaded files means every file parsed. -/
theorem loadFiles_some_forall {c : Str} {files : List (Str × Option (List α))}
    {acc d : List (Str × List α)}
    (h : optFoldl (loadFile c) acc files = some d) : ∀ f ∈ files, f.2 ≠ none := by
  induction files generalizing acc with
  | nil => simp
  | cons f fs ih =>
    intro g hg
    cases hf : f.2 with
    | none =>
      simp only [optFoldl, loadFile, hf] at h
      exact absurd h (by simp)
    | some v =>
      rcases List.mem_cons.mp hg with rfl | hg'
      · simp [hf]
      · simp only [optFoldl, loadFile, hf] at h
        exact ih h g hg'

/-- `combine_continents` over a single continent is the inner loop. -/
theorem combineContinents_single {exp : Bool} {c : Str}
    {fs : List (Str × Option (List α))} :
    combineContinents exp [c] fs =
      optFoldl (loadFile c) [] (fs.filter (fun f => considered exp c f.1)) := by
  simp only [combineContinents, optFoldl]
  cases h : optFoldl (loadFile c) [] (fs.filter (fun f => considered exp c f.1)) <;>
    simp [optFoldl, h]

/-- C4 (amended): a fragment file selected for a continent whose contents
fail to parse aborts the whole merge run (`json.load` raises and no handler
catches it); the run does not skip the pair and continue. -/
theorem C4_unparseable_fragment_aborts {α : Type} {exp : Bool} {continents : List Str}
    {fs : List (Str × Option (List α))} {c : Str} {f : Str × Option (List α)}
    (hc : c ∈ continents) (hf : f ∈ fs) (hcons : considered exp c f.1 = true)
    (hbad : f.2 = none) :
    combineContinents exp continents fs = none := by
  rw [combineContinents]
  refine optFoldl_none_of_mem hc (fun acc => ?_) []
  exact optFoldl_none_of_mem (List.mem_filter.mpr ⟨hf, hcons⟩)
    (fun s => by simp [loadFile, hbad]) acc

/-- C4 counterexample: with one good and one unparseable fragment for the
continent `na`, the merge aborts (`none`) instead of skipping the bad pair;
removing the bad file lets the same run succeed. -/
theorem C4_counterexample :
    combineContinents false [("na").data]
        [((("reaches_na.json").data), some [1]),
         ((("bad_na.json").data), (none : Option (List Nat)))] = none ∧
    combineContinents false [("na").data]
        [((("reaches_na.json").data), some ([1] : List Nat))] =
      some [((("reaches").data), [1])] := by
  constructor <;> decide

/-- Witness for `C4_unparseable_fragment_aborts` at a concrete listing. -/
theorem C4_witness :
    combineContinents false [("na").data]
      [((("reaches_na.json").data), some ([1] : List Nat)),
       ((("bad_na.json").data), none)] = none :=
  C4_unparseable_fragment_aborts (c := ("na").data)
    (f := ((("bad_na.json").data), none))
    (by decide) (by decide) (by decide) rfl

/-- C8 counterexample: for continent `as`, the merger loads
`basin_na.json` (because the glob `*as*` matches `as` inside `basin`,
not a `_as.json` suffix) and accumulates it under the unstripped key
`basin_na.json`.  The claim would require this file not to be loaded. -/
theorem C8_counterexample :
    combineContinents false [("as").data]
        [((("basin_na.json").data), some ([5] : List Nat))] =
      some [((("basin_na.json").data), [5])] := by decide

/-- C8 (amended): for every continent code, the merger loads exactly the
non-hidden files whose names *contain* the code as a substring (the glob is
`*{continent}*`, not a suffix match), and accumulates each loaded fragment
under the key obtained by deleting every occurrence of
`_{continent}.json` from the file name. -/
theorem C8_loaded_files_and_keys {α : Type} {c : Str} {fs : List (Str × Option (List α))}
    {d : List (Str × List α)}
    (hc : c.all (fun x => !globSpecial x) = true)
    (h : combineContinents false [c] fs = some d) :
    d = ((fs.filter (fun f => f.1.head? != some '.' && isSubstr c f.1)).map
          (fun f => (stripKey c f.1, f.2.getD []))).foldl
        (fun acc p => dictExtend acc p.1 p.2) [] := by
  rw [combineContinents_single] at h
  have hfil : fs.filter (fun f => considered false c f.1)
      = fs.filter (fun f => f.1.head? != some '.' && isSubstr c f.1) :=
    List.filter_congr fun f _ => by rw [considered_eq hc]
  rw [hfil] at h
  have hall := loadFiles_some_forall h
  rw [loadFiles_all_some hall []] at h
  have hd := Option.some.inj h
  rw [← hd, List.foldl_map]

/-- Witness for `C8_loaded_files_and_keys` at a concrete listing. -/
theorem C8_witness :
    ([((("reaches").data), ([1] : List Nat))]) =
      (([((("reaches_na.json").data), some ([1] : List Nat)),
         ((("basin_sa.json").data), some [2]),
         (((".hidden_na.json").data), some [3])].filter
          (fun f => f.1.head? != some '.' && isSubstr (("na").data) f.1)).map
        (fun f => (stripKey (("na").data) f.1, f.2.getD []))).foldl
      (fun acc p => dictExtend acc p.1 p.2) [] :=
  C8_loaded_files_and_keys (by decide) (by decide)

/-- C5: merging the two per-continent fragments `{k}_{c₁}.json` (length
`m`) and `{k}_{c₂}.json` (length `n`) of one list-typed dataset `k` yields
the global dataset `xs ++ ys` of length `m + n`: pure concatenation, no
deduplication.  (Cross-continent glob collisions — a code occurring as a
substring of the other file's name — only create separate junk keys and do
not disturb the dataset's own key.) -/
theorem C5_merge_concatenates {α : Type} {k c₁ c₂ : Str} (xs ys : List α)
    (hk : '.' ∉ k) (hc₁ : '.' ∉ c₁) (hc₂ : '.' ∉ c₂)
    (hu₁ : '_' ∉ c₁) (hu₂ : '_' ∉ c₂)
    (hg₁ : c₁.all (fun x => !globSpecial x) = true)
    (hg₂ : c₂.all (fun x => !globSpecial x) = true)
    (hne : c₁ ≠ c₂) :
    combinedDataset false [c₁, c₂]
        [(k ++ '_' :: (c₁ ++ (".json").data), some xs),
         (k ++ '_' :: (c₂ ++ (".json").data), some ys)] k = some (xs ++ ys) ∧
      (xs ++ ys).length = xs.length + ys.length := by
  refine ⟨?_, List.length_append _ _⟩
  have hhd : ∀ (r : Str), ((k ++ '_' :: r).head? != some '.') = true := by
    intro r
    cases k with
    | nil => rfl
    | cons a as =>
      have ha : a ≠ '.' := fun h => hk (h ▸ List.mem_cons_self _ _)
      simp [ha]
  have hsub : ∀ (c' : Str), isSubstr c' (k ++ '_' :: (c' ++ (".json").data)) = true := by
    intro c'
    exact isSubstr_iff.mpr ⟨k ++ ['_'], (".json").data, by simp⟩
  have h1 : considered false c₁ (k ++ '_' :: (c₁ ++ (".json").data)) = true := by
    rw [considered_eq hg₁, Bool.and_eq_true]
    exact ⟨hhd _, hsub _⟩
  have h2 : considered false c₂ (k ++ '_' :: (c₂ ++ (".json").data)) = true := by
    rw [considered_eq hg₂, Bool.and_eq_true]
    exact ⟨hhd _, hsub _⟩
  have k11 : stripKey c₁ (k ++ '_' :: (c₁ ++ (".json").data)) = k :=
    stripKey_own hk hc₁ hu₁
  have k22 : stripKey c₂ (k ++ '_' :: (c₂ ++ (".json").data)) = k :=
    stripKey_own hk hc₂ hu₂
  have k12 : stripKey c₁ (k ++ '_' :: (c₂ ++ (".json").data))
      = k ++ '_' :: (c₂ ++ (".json").data) :=
    stripKey_other hk hc₁ hc₂ hu₁ hu₂ hne
  have k21 : stripKey c₂ (k ++ '_' :: (c₁ ++ (".json").data))
      = k ++ '_' :: (c₁ ++ (".json").data) :=
    stripKey_other hk hc₂ hc₁ hu₂ hu₁ (Ne.symm hne)
  have hlen : ∀ (c' : Str), ¬(k = k ++ '_' :: (c' ++ (".json").data)) := by
    intro c' h
    have := congrArg List.length h
    simp [List.length_append] at this
  have hF2F1 : ¬((k ++ '_' :: (c₂ ++ (".json").data))
      = (k ++ '_' :: (c₁ ++ (".json").data))) := by
    intro h
    apply hne
    have h2' := List.append_cancel_left h
    simp only [List.cons.injEq, true_and] at h2'
    exact (List.append_cancel_right h2').symm
  have hF1F2 : ¬((k ++ '_' :: (c₁ ++ (".json").data))
      = (k ++ '_' :: (c₂ ++ (".json").data))) := fun h => hF2F1 h.symm
  have hF2k : ¬((k ++ '_' :: (c₂ ++ (".json").data)) = k) := fun h => hlen c₂ h.symm
  have hF1k : ¬((k ++ '_' :: (c₁ ++ (".json").data)) = k) := fun h => hlen c₁ h.symm
  cases hb1 : considered false c₁ (k ++ '_' :: (c₂ ++ (".json").data)) <;>
    cases hb2 : considered false c₂ (k ++ '_' :: (c₁ ++ (".json").data)) <;>
      simp [combinedDataset, combineContinents, optFoldl, loadFile, List.filter_cons,
        h1, h2, hb1, hb2, k11, k12, k21, k22, dictExtend, dictLookup,
        hlen c₁, hlen c₂, hF2F1, hF1F2, hF2k, hF1k]

/-- Witness for `C5_merge_concatenates`: the `s3_list` dataset over
continents `na` and `eu` with fragments of lengths 2 and 1. -/
theorem C5_witness :
    combinedDataset false [("na").data, ("eu").data]
        [((("s3_list").data ++ '_' :: ((("na").data) ++ (".json").data)),
            some ([1, 2] : List Nat)),
         ((("s3_list").data ++ '_' :: ((("eu").data) ++ (".json").data)), some [3])]
        (("s3_list").data) = some ([1, 2] ++ [3]) ∧
      (([1, 2] ++ [3] : List Nat)).length =
        ([1, 2] : List Nat).length + ([3] : List Nat).length :=
  C5_merge_concatenates [1, 2] [3] (by decide) (by decide) (by decide) (by decide)
    (by decide) (by decide) (by decide) (by decide)

/-- C9 counterexample: a directory holding the bare file `reaches.json`.
Its trailing token is `reaches` — the literal dataset name — which the
claim says is excluded from consideration; the code only excludes
`interest`, looks `reaches` up in the continent table, and the `KeyError`
aborts discovery. -/
theorem C9_counterexample : load_continents [("reaches.json").data] = none := by decide

/-- C9 (amended): discovery filters out only the token `interest`; every
other extracted token — including the literal dataset name from a file
such as `reaches.json` — is looked up in the continent table, and a token
missing from the table aborts discovery with a `KeyError`. -/
theorem C9_unknown_token_aborts {files : List Str} {t : Str}
    (ht : t ∈ discoveryTokens files) (hmiss : continent_dict t = none) :
    load_continents files = none := by
  rw [load_continents, optMap_none_of_mem ht hmiss]
  split <;> rfl

/-- Witness for `C9_unknown_token_aborts`. -/
theorem C9_witness : load_continents [("reaches.json").data] = none :=
  C9_unknown_token_aborts (t := ("reaches").data) (by decide) (by decide)

/-- C1: for every 4-character basin id prefix derived from the merged reach
list, the record built by `create_basin_data` carries that basin id and its
`reach_id` list holds exactly the merged reach ids whose decimal string
form starts with the basin id's decimal string — a scan of the full merged
list, nothing added and nothing missing. -/
theorem C1_basin_membership {reaches : List Nat} {v : Str} {b : Nat} {rec : BasinData}
    (hb : b ∈ basin_ids reaches)
    (hrec : create_basin_data b reaches v = some rec) :
    rec.basin_id = b ∧
      ∀ r, r ∈ rec.reach_id ↔
        (r ∈ reaches ∧ (natChars b).isPrefixOf (natChars r) = true) := by
  unfold create_basin_data at hrec
  cases hcc : continent_codes ((natChars b).headD ' ') with
  | none => rw [hcc] at hrec; exact absurd hrec (by simp)
  | some cc =>
    rw [hcc] at hrec
    simp only [Option.some.injEq] at hrec
    subst hrec
    refine ⟨rfl, fun r => ?_⟩
    simp [List.mem_filter]

/-- Witness for `C1_basin_membership`: reaches `12798000121`,
`12798000122`, `74267100071`, basin id `1279`, sword version `16`. -/
theorem C1_witness :
    (BasinData.mk 1279 [12798000121, 12798000122] (("af_sword_v16.nc").data)
        (("af_sword_v16_SOS_priors.nc").data)).basin_id = 1279 ∧
      ∀ r, r ∈ (BasinData.mk 1279 [12798000121, 12798000122]
          (("af_sword_v16.nc").data) (("af_sword_v16_SOS_priors.nc").data)).reach_id ↔
        (r ∈ [12798000121, 12798000122, 74267100071] ∧
          (natChars 1279).isPrefixOf (natChars r) = true) :=
  C1_basin_membership (v := ("16").data) (by decide) (by decide)

/-! ## Duplicate-resolver lemmas -/

theorem sfxOk_unpack {s : Str} (h : sfxOk s = true) :
    ∃ d₁ d₂, isDigitC d₁ = true ∧ isDigitC d₂ = true ∧ s = [d₁, d₂] ++ (".zip").data := by
  match s, h with
  | [d₁, d₂, x₁, x₂, x₃, x₄], h =>
    simp only [sfxOk, Bool.and_eq_true, beq_iff_eq] at h
    obtain ⟨⟨h1, h2⟩, h3⟩ := h
    refine ⟨d₁, d₂, h1, h2, ?_⟩
    rw [show ([d₁, d₂, x₁, x₂, x₃, x₄] : Str) = [d₁, d₂] ++ [x₁, x₂, x₃, x₄] from rfl, h3]
  | [], h => exact nomatch h
  | [_], h => exact nomatch h
  | [_, _], h => exact nomatch h
  | [_, _, _], h => exact nomatch h
  | [_, _, _, _], h => exact nomatch h
  | [_, _, _, _, _], h => exact nomatch h
  | _ :: _ :: _ :: _ :: _ :: _ :: _ :: _, h => exact nomatch h

theorem entryOk_unpack {n : Nat} {e : Str} (h : entryOk n e = true) :
    e.length = n ∧ 6 ≤ n ∧
    (stripOf e).all (fun ch => !globSpecial ch) = true ∧
    ∃ d₁ d₂, isDigitC d₁ = true ∧ isDigitC d₂ = true ∧
      e = stripOf e ++ ([d₁, d₂] ++ (".zip").data) := by
  simp only [entryOk, Bool.and_eq_true, beq_iff_eq] at h
  obtain ⟨⟨hlen, hsfx⟩, hglob⟩ := h
  obtain ⟨d₁, d₂, h1, h2, hshape⟩ := sfxOk_unpack hsfx
  have hdl : (e.drop (e.length - 6)).length = e.length - (e.length - 6) :=
    List.length_drop _ _
  rw [hshape] at hdl
  simp only [List.length_append, List.length_cons] at hdl
  have hZ : (".zip").data.length = 4 := rfl
  have h6 : 6 ≤ e.length := by omega
  refine ⟨hlen, hlen ▸ h6, hglob, d₁, d₂, h1, h2, ?_⟩
  conv_lhs => rw [← List.take_append_drop (e.length - 6) e]
  rw [hshape]
  rfl

theorem stripOf_length {n : ℕ} {e : Str} (h : entryOk n e = true) :
    (stripOf e).length = n - 6 := by
  obtain ⟨hlen, _, _, _⟩ := entryOk_unpack h
  simp only [stripOf, List.length_take]
  omega

theorem counterOf_lt100 {n : ℕ} {e : Str} (h : entryOk n e = true) :
    counterOf e < 100 ∧
      ∃ d₁ d₂, isDigitC d₁ = true ∧ isDigitC d₂ = true ∧
        counterOf e = 10 * digitVal d₁ + digitVal d₂ ∧
        e = stripOf e ++ ([d₁, d₂] ++ (".zip").data) := by
  obtain ⟨hlen, h6, _, d₁, d₂, h1, h2, hshape⟩ := entryOk_unpack h
  have hsl : (stripOf e).length = e.length - 6 := by
    simp only [stripOf, List.length_take]; omega
  have hZ : (".zip").data.length = 4 := rfl
  have hlen6 : (stripOf e ++ ([d₁, d₂] ++ (".zip").data)).length - 6 = (stripOf e).length := by
    simp only [List.length_append, List.length_cons, List.length_nil, hZ]
    omega
  have hdrop : e.drop (e.length - 6) = [d₁, d₂] ++ (".zip").data := by
    conv_lhs => rw [hshape]
    rw [hlen6, List.drop_left]
  have hcnt : counterOf e = 10 * digitVal d₁ + digitVal d₂ := by
    simp only [counterOf, hdrop]
    show strToNat [d₁, d₂] = _
    simp only [strToNat, List.foldl]
    omega
  have hb1 := digitVal_lt_ten h1
  have hb2 := digitVal_lt_ten h2
  exact ⟨by omega, d₁, d₂, h1, h2, hcnt, hshape⟩

theorem digits_eq_of_counter_eq {d₁ d₂ e₁ e₂ : Char}
    (hd₁ : isDigitC d₁ = true) (hd₂ : isDigitC d₂ = true)
    (he₁ : isDigitC e₁ = true) (he₂ : isDigitC e₂ = true)
    (h : 10 * digitVal d₁ + digitVal d₂ = 10 * digitVal e₁ + digitVal e₂) :
    d₁ = e₁ ∧ d₂ = e₂ := by
  have b₁ := digitVal_lt_ten hd₁
  have b₂ := digitVal_lt_ten hd₂
  have b₃ := digitVal_lt_ten he₁
  have b₄ := digitVal_lt_ten he₂
  have hv₁ : digitVal d₁ = digitVal e₁ := by omega
  have hv₂ : digitVal d₂ = digitVal e₂ := by omega
  constructor
  · rw [← digitChar_digitVal hd₁, ← digitChar_digitVal he₁, hv₁]
  · rw [← digitChar_digitVal hd₂, ← digitChar_digitVal he₂, hv₂]

/-- Entries of a uniform listing are determined by their grouping prefix
and counter value. -/
theorem entry_unique {n : ℕ} {x y : Str} (hx : entryOk n x = true)
    (hy : entryOk n y = true) (hs : stripOf x = stripOf y)
    (hc : counterOf x = counterOf y) : x = y := by
  obtain ⟨_, dx₁, dx₂, hdx₁, hdx₂, hcx, hshx⟩ := counterOf_lt100 hx
  obtain ⟨_, dy₁, dy₂, hdy₁, hdy₂, hcy, hshy⟩ := counterOf_lt100 hy
  rw [hcx, hcy] at hc
  obtain ⟨h1, h2⟩ := digits_eq_of_counter_eq hdx₁ hdx₂ hdy₁ hdy₂ hc
  rw [hshx, hshy, hs, h1, h2]

theorem digit_zip_no_pfx {a : Char} (ha : isDigitC a = true) (s : Str) :
    (".zip").data.isPrefixOf (a :: s) = false := by
  have hne : ('.' == a) = false :=
    beq_eq_false_iff_ne.mpr fun h => (isDigit_not_special ha).2.2.2.1 h.symm
  rw [show (".zip").data = '.' :: ("zip").data from rfl]
  simp [List.isPrefixOf, hne]

/-- `'{d₁}{d₂}.zip'.replace('.zip', '') == '{d₁}{d₂}'` for digit characters. -/
theorem replaceZip_digits {d₁ d₂ : Char} (h1 : isDigitC d₁ = true)
    (h2 : isDigitC d₂ = true) :
    replaceAll ([d₁, d₂] ++ (".zip").data) (".zip").data [] = [d₁, d₂] := by
  apply replaceAll_clean_sfx (by decide)
  intro u v huv hv
  have hvlen : v.length ≤ 2 := by
    have := congrArg List.length huv
    simp only [List.length_append, List.length_cons, List.length_nil] at this
    omega
  rcases v with _ | ⟨a, _ | ⟨b, _ | ⟨c, t⟩⟩⟩
  · exact absurd rfl hv
  · -- v = [a]: then a = d₂
    have ha : a = d₂ := by
      rcases u with _ | ⟨x, _ | ⟨y, t'⟩⟩
      · have := congrArg List.length huv
        simp only [List.length_append, List.length_cons, List.length_nil] at this
        omega
      · simp only [List.cons_append, List.nil_append, List.cons.injEq] at huv
        exact huv.2.1
      · have := congrArg List.length huv
        simp only [List.length_append, List.length_cons, List.length_nil] at this
        omega
    exact digit_zip_no_pfx (ha ▸ h2) _
  · -- v = [a, b]: then a = d₁
    have ha : a = d₁ := by
      rcases u with _ | ⟨x, t'⟩
      · simp only [List.nil_append, List.cons.injEq] at huv
        exact huv.1
      · have := congrArg List.length huv
        simp only [List.length_append, List.length_cons, List.length_nil] at this
        omega
    exact digit_zip_no_pfx (ha ▸ h1) _
  · simp only [List.length_cons] at hvlen
    omega

/-- `int('{d₁}{d₂}')` for digit characters. -/
theorem pyInt_two_digits {d₁ d₂ : Char} (h1 : isDigitC d₁ = true)
    (h2 : isDigitC d₂ = true) :
    pyInt [d₁, d₂] = some (((10 * digitVal d₁ + digitVal d₂ : Nat)) : Int) := by
  obtain ⟨hm₁, hp₁, hU₁, hD₁, hS₁, _⟩ := isDigit_not_special h1
  obtain ⟨hm₂, hp₂, hU₂, hD₂, hS₂, _⟩ := isDigit_not_special h2
  have hstrip : stripSpaces [d₁, d₂] = [d₁, d₂] := by
    simp [stripSpaces, List.dropWhile, hS₁, hS₂]
  have hok : okDigits [d₁, d₂] = true := by
    simp [okDigits, h1, h2, hU₁, hU₂]
  rw [pyInt]
  rw [hstrip]
  simp only [if_neg hm₁, if_neg hp₁]
  rw [pyDigitsVal, if_pos hok]
  have hv : strToNat (List.filter isDigitC [d₁, d₂]) = 10 * digitVal d₁ + digitVal d₂ := by
    simp only [List.filter, h1, h2]
    simp only [strToNat, List.foldl]
    omega
  simp [hv]

/-- The per-entry counter computation of the resolver loop on a
well-formed entry. -/
theorem counter_step {n : ℕ} {j : Str} (h : entryOk n j = true) :
    pyInt (replaceAll (j.drop (j.length - 6)) (".zip").data []) =
      some ((counterOf j : Nat) : Int) := by
  obtain ⟨d₁, d₂, h1, h2, hcnt, hshape⟩ := (counterOf_lt100 h).2
  have hZ : (".zip").data.length = 4 := rfl
  have hlen6 : (stripOf j ++ ([d₁, d₂] ++ (".zip").data)).length - 6 = (stripOf j).length := by
    simp only [List.length_append, List.length_cons, List.length_nil, hZ]
    omega
  have hdrop : j.drop (j.length - 6) = [d₁, d₂] ++ (".zip").data := by
    conv_lhs => rw [hshape]
    rw [hlen6, List.drop_left]
  rw [hdrop, replaceZip_digits h1 h2, pyInt_two_digits h1 h2, hcnt]

theorem natChars_lt10 {v : Nat} (h : v < 10) : natChars v = [Nat.digitChar v] := by
  rw [show natChars v = natCharsAux (v + 1) v from rfl,
    show natCharsAux (v + 1) v =
      (if v < 10 then [Nat.digitChar v]
       else natCharsAux v (v / 10) ++ [Nat.digitChar (v % 10)]) from rfl,
    if_pos h]

theorem natChars_two_digits {v : Nat} (h1 : 10 ≤ v) (h2 : v < 100) :
    natChars v = [Nat.digitChar (v / 10), Nat.digitChar (v % 10)] := by
  obtain ⟨w, rfl⟩ : ∃ w, v = w + 1 := ⟨v - 1, by omega⟩
  rw [show natChars (w + 1) = natCharsAux (w + 1 + 1) (w + 1) from rfl,
    show natCharsAux (w + 1 + 1) (w + 1) =
      (if w + 1 < 10 then [Nat.digitChar (w + 1)]
       else natCharsAux (w + 1) ((w + 1) / 10) ++ [Nat.digitChar ((w + 1) % 10)]) from rfl,
    if_neg (by omega),
    show natCharsAux (w + 1) ((w + 1) / 10) =
      (if (w + 1) / 10 < 10 then [Nat.digitChar ((w + 1) / 10)]
       else natCharsAux w (((w + 1) / 10) / 10) ++ [Nat.digitChar (((w + 1) / 10) % 10)])
      from rfl,
    if_pos (by omega)]
  rfl

/-- `"{:02d}".format(v)` for `v < 100` is the two-digit decimal form. -/
theorem format02_lt100 {v : Nat} (h : v < 100) :
    format02 ((v : Nat) : Int) = [Nat.digitChar (v / 10), Nat.digitChar (v % 10)] := by
  rw [format02, if_neg (by omega)]
  have htn : ((v : Int)).toNat = v := rfl
  by_cases h10 : v < 10
  · rw [htn, natChars_lt10 h10]
    rw [show v / 10 = 0 from by omega, show v % 10 = v from by omega]
    rfl
  · rw [htn, natChars_two_digits (by omega) h]
    rfl

theorem foldl_max_spec (xs : List Int) (x : Int) :
    (xs.foldl max x ∈ x :: xs) ∧ x ≤ xs.foldl max x ∧ ∀ y ∈ xs, y ≤ xs.foldl max x := by
  induction xs generalizing x with
  | nil => simp
  | cons y ys ih =>
    obtain ⟨hmem, hle, hall⟩ := ih (max x y)
    refine ⟨?_, ?_, ?_⟩
    · rcases List.mem_cons.mp hmem with hm | hm
      · rcases max_choice x y with hc | hc <;> rw [List.foldl_cons, hm, hc] <;> simp
      · simp [List.foldl_cons, List.mem_cons.mpr (Or.inr (List.mem_cons_of_mem _ hm))]
    · calc x ≤ max x y := le_max_left _ _
        _ ≤ (y :: ys).foldl max x := by rw [List.foldl_cons]; exact hle
    · intro z hz
      rcases List.mem_cons.mp hz with rfl | hz'
      · calc z ≤ max x z := le_max_right _ _
          _ ≤ (z :: ys).foldl max x := by rw [List.foldl_cons]; exact hle
      · rw [List.foldl_cons]
        exact hall z hz'

theorem pyMax_mem {l : List Int} {m : Int} (h : pyMax l = some m) : m ∈ l := by
  cases l with
  | nil => exact absurd h (by simp [pyMax])
  | cons x xs =>
    simp only [pyMax, Option.some.injEq] at h
    exact h ▸ (foldl_max_spec xs x).1

theorem pyMax_ge {l : List Int} {m : Int} (h : pyMax l = some m) : ∀ x ∈ l, x ≤ m := by
  cases l with
  | nil => simp
  | cons x xs =>
    simp only [pyMax, Option.some.injEq] at h
    intro z hz
    rcases List.mem_cons.mp hz with rfl | hz'
    · exact h ▸ (foldl_max_spec xs z).2.1
    · exact h ▸ (foldl_max_spec xs x).2.2 z hz'

/-- On a uniform listing, the grouping `fnmatch.filter(s3_urls, i[:-6]+'*')`
selects exactly the entries with the same stripped prefix. -/
theorem group_eq {n : ℕ} {L : List Str} (hL : ∀ e ∈ L, entryOk n e = true)
    {i : Str} (hi : i ∈ L) :
    pyFnmatchFilter L (stripOf i ++ ['*']) =
      L.filter (fun x => stripOf x == stripOf i) := by
  unfold pyFnmatchFilter
  apply List.filter_congr
  intro x hx
  rw [globMatch_pfx (entryOk_unpack (hL i hi)).2.2.1]
  apply bool_eq_of_iff
  rw [isPrefixOf_iff_exists, beq_iff_eq]
  have hxl : x.length = n := (entryOk_unpack (hL x hx)).1
  have hil : (stripOf i).length = n - 6 := stripOf_length (hL i hi)
  constructor
  · rintro ⟨t, ht⟩
    rw [stripOf, hxl, ← ht, List.take_append_eq_append_take, ← hil, List.take_length,
      Nat.sub_self, List.take_zero, List.append_nil]
  · intro hss
    refine ⟨x.drop (x.length - 6), ?_⟩
    rw [← hss, stripOf]
    exact List.take_append_drop _ _

/-- On a uniform group, `fnmatch.filter(g, f'*{padded}.zip')` selects
exactly the entries whose counter has the padded value. -/
theorem sfx_filter_eq {n : ℕ} {g : List Str} (hg : ∀ e ∈ g, entryOk n e = true)
    {v : Nat} (hv : v < 100) :
    pyFnmatchFilter g ('*' :: (format02 ((v : Nat) : Int) ++ (".zip").data)) =
      g.filter (fun x => counterOf x == v) := by
  unfold pyFnmatchFilter
  apply List.filter_congr
  intro x hx
  apply bool_eq_of_iff
  rw [beq_iff_eq]
  have hall : (format02 ((v : Nat) : Int) ++ (".zip").data).all
      (fun c => !globSpecial c) = true := by
    rw [format02_lt100 hv]
    have g1 := (isDigit_not_special (isDigit_digitChar (n := v / 10) (by omega))).2.2.2.2.2
    have g2 := (isDigit_not_special
      (isDigit_digitChar (n := v % 10) (by omega))).2.2.2.2.2
    rw [List.all_append, Bool.and_eq_true]
    constructor
    · simp [List.all_cons, g1, g2]
    · decide
  rw [globMatch_sfx hall]
  obtain ⟨hc100, hrest⟩ := counterOf_lt100 (hg x hx)
  obtain ⟨d₁, d₂, hd₁, hd₂, hcnt, hshape⟩ := hrest
  have hZ : (".zip").data.length = 4 := rfl
  constructor
  · rintro ⟨t, ht⟩
    rw [format02_lt100 hv] at ht
    have ht2 : t ++ ([Nat.digitChar (v / 10), Nat.digitChar (v % 10)] ++ (".zip").data)
        = stripOf x ++ ([d₁, d₂] ++ (".zip").data) := by
      exact ht.trans hshape
    have hlen : t.length = (stripOf x).length := by
      have := congrArg List.length ht2
      simp only [List.length_append, List.length_cons, List.length_nil, hZ] at this
      omega
    have hinj := List.append_inj ht2 hlen
    have hdig := hinj.2
    simp only [List.cons_append, List.nil_append, List.cons.injEq] at hdig
    have hdv1 : digitVal (Nat.digitChar (v / 10)) = v / 10 := by
      rw [digitVal, digitChar_toNat (show v / 10 < 10 from by omega)]
      omega
    have hdv2 : digitVal (Nat.digitChar (v % 10)) = v % 10 := by
      rw [digitVal, digitChar_toNat (show v % 10 < 10 from by omega)]
      omega
    rw [hcnt, ← hdig.1, ← hdig.2.1, hdv1, hdv2]
    omega
  · intro hcv
    have hveq : 10 * digitVal d₁ + digitVal d₂ = v := by rw [← hcnt, hcv]
    have hb1 := digitVal_lt_ten hd₁
    have hb2 := digitVal_lt_ten hd₂
    have hv1 : digitVal d₁ = v / 10 := by omega
    have hv2 : digitVal d₂ = v % 10 := by omega
    have h1 : Nat.digitChar (v / 10) = d₁ := by rw [← hv1, digitChar_digitVal hd₁]
    have h2 : Nat.digitChar (v % 10) = d₂ := by rw [← hv2, digitChar_digitVal hd₂]
    refine ⟨stripOf x, ?_⟩
    rw [format02_lt100 hv, h1, h2]
    exact hshape.symm

/-- Characterization of one resolver-loop iteration on a uniform listing:
it succeeds, the appended entry lies in the same group as `i` and carries
the group's maximal counter, and a singleton group returns `i` itself. -/
theorem processEntry_uniform {n : ℕ} {L : List Str} (hL : ∀ e ∈ L, entryOk n e = true)
    {i : Str} (hi : i ∈ L) :
    ∃ e, processEntry L i = some e ∧ e ∈ L ∧ stripOf e = stripOf i ∧
      (∀ x ∈ L, stripOf x = stripOf i → counterOf x ≤ counterOf e) ∧
      ((L.filter (fun x => stripOf x == stripOf i)).length ≤ 1 → e = i) := by
  have hgsub : ∀ e ∈ L.filter (fun x => stripOf x == stripOf i), entryOk n e = true :=
    fun e he => hL e (List.mem_of_mem_filter he)
  have hig : i ∈ L.filter (fun x => stripOf x == stripOf i) :=
    List.mem_filter.mpr ⟨hi, by simp⟩
  unfold processEntry
  rw [show i.take (i.length - 6) = stripOf i from rfl, group_eq hL hi]
  by_cases hg1 : (L.filter (fun x => stripOf x == stripOf i)).length > 1
  · rw [if_pos hg1]
    rw [optMap_some_of (g := fun j => ((counterOf j : Nat) : Int))
      (fun j hj => counter_step (hgsub j hj)), Option.some_bind]
    obtain ⟨a, rest, hG⟩ : ∃ a rest,
        L.filter (fun x => stripOf x == stripOf i) = a :: rest := by
      cases hG : L.filter (fun x => stripOf x == stripOf i) with
      | nil => rw [hG] at hg1; simp at hg1
      | cons a rest => exact ⟨a, rest, rfl⟩
    have hm : ∃ m, pyMax ((L.filter (fun x => stripOf x == stripOf i)).map
        (fun j => ((counterOf j : Nat) : Int))) = some m := by
      rw [hG]; exact ⟨_, rfl⟩
    obtain ⟨m, hm⟩ := hm
    rw [hm, Option.some_bind]
    obtain ⟨e₀, he₀g, he₀⟩ := List.mem_map.mp (pyMax_mem hm)
    have hv100 : counterOf e₀ < 100 := (counterOf_lt100 (hgsub e₀ he₀g)).1
    rw [← he₀, sfx_filter_eq hgsub hv100]
    have he₀f : e₀ ∈ (L.filter (fun x => stripOf x == stripOf i)).filter
        (fun x => counterOf x == counterOf e₀) :=
      List.mem_filter.mpr ⟨he₀g, by simp⟩
    obtain ⟨e, erest, hF⟩ : ∃ e erest,
        (L.filter (fun x => stripOf x == stripOf i)).filter
          (fun x => counterOf x == counterOf e₀) = e :: erest := by
      cases hF : (L.filter (fun x => stripOf x == stripOf i)).filter
          (fun x => counterOf x == counterOf e₀) with
      | nil => rw [hF] at he₀f; simp at he₀f
      | cons e erest => exact ⟨e, erest, rfl⟩
    rw [hF]
    refine ⟨e, rfl, ?_, ?_, ?_, ?_⟩
    · have : e ∈ L.filter (fun x => stripOf x == stripOf i) :=
        List.mem_of_mem_filter (hF ▸ List.mem_cons_self e erest)
      exact List.mem_of_mem_filter this
    · have : e ∈ L.filter (fun x => stripOf x == stripOf i) :=
        List.mem_of_mem_filter (hF ▸ List.mem_cons_self e erest)
      exact beq_iff_eq.mp (List.mem_filter.mp this).2
    · intro x hx hsx
      have hxg : x ∈ L.filter (fun x' => stripOf x' == stripOf i) :=
        List.mem_filter.mpr ⟨hx, beq_iff_eq.mpr hsx⟩
      have hce : counterOf e = counterOf e₀ := by
        have := (List.mem_filter.mp (hF ▸ List.mem_cons_self e erest)).2
        exact beq_iff_eq.mp this
      have hxle : ((counterOf x : Nat) : Int) ≤ m :=
        pyMax_ge hm _ (List.mem_map.mpr ⟨x, hxg, rfl⟩)
      rw [← he₀] at hxle
      rw [hce]
      exact_mod_cast hxle
    · intro hle
      omega
  · rw [if_neg hg1]
    refine ⟨i, rfl, hi, rfl, ?_, fun _ => rfl⟩
    intro x hx hsx
    have hxg : x ∈ L.filter (fun x' => stripOf x' == stripOf i) :=
      List.mem_filter.mpr ⟨hx, beq_iff_eq.mpr hsx⟩
    have hlen1 : (L.filter (fun x' => stripOf x' == stripOf i)).length = 1 := by
      have := List.length_pos.mpr (List.ne_nil_of_mem hig)
      omega
    obtain ⟨a, ha⟩ := List.length_eq_one.mp hlen1
    rw [ha] at hig hxg
    have : x = a := by simpa using hxg
    have hia : i = a := by simpa using hig
    rw [this, ← hia]

theorem optMap_mem_of {f : α → Option β} {l : List α} {P : List β} {a : α} {b : β}
    (h : optMap f l = some P) (ha : a ∈ l) (hfa : f a = some b) : b ∈ P := by
  induction l generalizing P with
  | nil => simp at ha
  | cons x xs ih =>
    simp only [optMap] at h
    cases hfx : f x with
    | none => rw [hfx] at h; exact absurd h (by simp)
    | some b0 =>
      rw [hfx] at h
      cases hrest : optMap f xs with
      | none => rw [hrest] at h; exact absurd h (by simp)
      | some bs =>
        rw [hrest] at h
        simp only [Option.some.injEq] at h
        subst h
        rcases List.mem_cons.mp ha with rfl | ha'
        · have hb : b = b0 := Option.some.inj (hfa.symm.trans hfx)
          exact hb ▸ List.mem_cons_self _ _
        · exact List.mem_cons_of_mem _ (ih hrest ha')

theorem pyFnmatchFilter_subset {names : List Str} {pat e : Str}
    (h : e ∈ pyFnmatchFilter names pat) : e ∈ names :=
  List.mem_of_mem_filter h

/-- Every entry appended by one loop iteration comes from the input
listing (it is either `i` itself or `max_path[0]`, both drawn from
`s3_urls`). -/
theorem processEntry_mem {L : List Str} {i e : Str} (hi : i ∈ L)
    (h : processEntry L i = some e) : e ∈ L := by
  unfold processEntry at h
  by_cases hlen : (pyFnmatchFilter L (i.take (i.length - 6) ++ ['*'])).length > 1
  · rw [if_pos hlen] at h
    cases hnums : optMap
        (fun j => pyInt (replaceAll (j.drop (j.length - 6)) (".zip").data []))
        (pyFnmatchFilter L (i.take (i.length - 6) ++ ['*'])) with
    | none => rw [hnums] at h; exact absurd h (by simp)
    | some nums =>
      rw [hnums, Option.some_bind] at h
      cases hmx : pyMax nums with
      | none => rw [hmx] at h; exact absurd h (by simp)
      | some mx =>
        rw [hmx, Option.some_bind] at h
        have he : e ∈ pyFnmatchFilter (pyFnmatchFilter L (i.take (i.length - 6) ++ ['*']))
            ('*' :: (format02 mx ++ (".zip").data)) := by
          cases hF : pyFnmatchFilter (pyFnmatchFilter L (i.take (i.length - 6) ++ ['*']))
              ('*' :: (format02 mx ++ (".zip").data)) with
          | nil => rw [hF] at h; exact absurd h (by simp)
          | cons a r =>
            rw [hF] at h
            simp only [List.head?] at h
            exact (Option.some.inj h) ▸ (hF ▸ List.mem_cons_self a r)
        exact pyFnmatchFilter_subset (pyFnmatchFilter_subset he)
  · rw [if_neg hlen] at h
    exact (Option.some.inj h) ▸ hi

/-- The resolver's output, when it exists, is `dedupFirst` of a list of
per-entry picks. -/
theorem resolve_parsed {L R : List Str} (h : parse_duplicate_files L = some R) :
    ∃ parsed, optMap (processEntry L) L = some parsed ∧ R = dedupFirst parsed := by
  unfold parse_duplicate_files at h
  cases hP : optMap (processEntry L) L with
  | none => rw [hP] at h; exact absurd h (by simp)
  | some parsed =>
    rw [hP] at h
    simp only [Option.map_some', Option.some.injEq] at h
    exact ⟨parsed, rfl, h.symm⟩

theorem resolve_subset {L R : List Str} (h : parse_duplicate_files L = some R) :
    ∀ e ∈ R, e ∈ L := by
  obtain ⟨parsed, hP, hR⟩ := resolve_parsed h
  intro e he
  rw [hR] at he
  obtain ⟨i, hi, hpi⟩ := optMap_mem hP e (dedupFirst_mem.mp he)
  exact processEntry_mem hi hpi

theorem resolve_nodup {L R : List Str} (h : parse_duplicate_files L = some R) :
    R.Nodup := by
  obtain ⟨parsed, hP, hR⟩ := resolve_parsed h
  rw [hR]
  exact dedupFirst_nodup parsed

/-- Shared characterization: on a uniform listing, the resolver's output
contains exactly the entries maximal (by counter) within their prefix
group. -/
theorem resolve_uniform_mem {n : ℕ} {L R : List Str}
    (hL : ∀ e ∈ L, entryOk n e = true)
    (h : parse_duplicate_files L = some R) :
    ∀ e, e ∈ R ↔
      (e ∈ L ∧ ∀ x ∈ L, stripOf x = stripOf e → counterOf x ≤ counterOf e) := by
  obtain ⟨parsed, hP, hR⟩ := resolve_parsed h
  intro e
  rw [hR, dedupFirst_mem]
  constructor
  · intro hep
    obtain ⟨i, hiL, hpi⟩ := optMap_mem hP e hep
    obtain ⟨e', hpe', he'L, hstrip, hmax, _⟩ := processEntry_uniform hL hiL
    have hee : e' = e := Option.some.inj (hpe'.symm.trans hpi)
    subst hee
    exact ⟨he'L, fun x hx hsx => hmax x hx (hsx.trans hstrip)⟩
  · rintro ⟨heL, hmax⟩
    obtain ⟨e', hpe', he'L, hstrip, hmax', _⟩ := processEntry_uniform hL heL
    have h1 : counterOf e' ≤ counterOf e := hmax e' he'L hstrip
    have h2 : counterOf e ≤ counterOf e' := hmax' e heL rfl
    have hee : e' = e := entry_unique (hL e' he'L) (hL e heL) hstrip (by omega)
    exact optMap_mem_of hP heL (hee ▸ hpe')

theorem nodup_all_eq_length_le_one {α : Type} {l : List α} (hnd : l.Nodup) {e : α}
    (h : ∀ x ∈ l, x = e) : l.length ≤ 1 := by
  cases l with
  | nil => simp
  | cons a t =>
    cases t with
    | nil => simp
    | cons b t' =>
      exfalso
      have ha : a = e := h a (List.mem_cons_self _ _)
      have hb : b = e := h b (List.mem_cons_of_mem _ (List.mem_cons_self _ _))
      rw [List.nodup_cons] at hnd
      exact hnd.1 (by rw [ha, ← hb]; exact List.mem_cons_self _ _)

/-- C2 counterexample: entries of different lengths.  The 6-char-stripped
prefixes are `aaaaaaaa` and `aa`, so both groups have size one and the
claim requires both entries to be retained; but the code's group for
`aa01.zip` is a `startswith`-match that captures `aaaaaaaa01.zip` too, and
`aa01.zip` is dropped from the output. -/
theorem C2_counterexample :
    parse_duplicate_files [("aaaaaaaa01.zip").data, ("aa01.zip").data]
        = some [("aaaaaaaa01.zip").data] ∧
      ([("aaaaaaaa01.zip").data, ("aa01.zip").data].filter
        (fun e => stripOf e == stripOf (("aa01.zip").data))).length = 1 ∧
      ("aa01.zip").data ∉ [("aaaaaaaa01.zip").data] := by
  refine ⟨by decide, by decide, by decide⟩

/-- C2 (amended): on a listing whose entries share one length and have the
well-formed `{prefix}{dd}.zip` shape with a glob-metacharacter-free
prefix, duplicate resolution retains exactly the entries whose two-digit
counter is maximal within their 6-character-stripped prefix group: a group
of size one is retained unchanged and a larger group keeps only its
maximal-counter member.  (With entries of differing lengths the grouping
becomes an asymmetric `startswith` test and the property fails, as the
counterexample shows.) -/
theorem C2_uniform_resolution {n : ℕ} {L R : List Str}
    (hL : ∀ e ∈ L, entryOk n e = true)
    (h : parse_duplicate_files L = some R) :
    ∀ e, e ∈ R ↔
      (e ∈ L ∧ ∀ x ∈ L, stripOf x = stripOf e → counterOf x ≤ counterOf e) :=
  resolve_uniform_mem hL h

/-- Witness for `C2_uniform_resolution`: the spec's own example listing
`["abcXYZ01.zip", "abcXYZ03.zip", "abcXYZ02.zip"]` resolves to
`["abcXYZ03.zip"]`. -/
theorem C2_witness :
    ("abcXYZ03.zip").data ∈ [("abcXYZ03.zip").data] ↔
      (("abcXYZ03.zip").data ∈
          [("abcXYZ01.zip").data, ("abcXYZ03.zip").data, ("abcXYZ02.zip").data] ∧
        ∀ x ∈ [("abcXYZ01.zip").data, ("abcXYZ03.zip").data, ("abcXYZ02.zip").data],
          stripOf x = stripOf (("abcXYZ03.zip").data) →
            counterOf x ≤ counterOf (("abcXYZ03.zip").data)) :=
  C2_uniform_resolution (n := 12) (by decide) (by decide) (("abcXYZ03.zip").data)

/-- C6 counterexample: resolution is not idempotent.  On
`["ab07.zip", "abc09.zip", "ab005.zip"]` one pass keeps
`{abc09.zip, ab07.zip}` (the `ab0`-prefixed group elects `ab07.zip`, the
`ab`-prefixed scan elects `abc09.zip`), but a second pass sees `ab07.zip`'s
group contain `abc09.zip` with a larger counter and drops `ab07.zip`: the
output set shrinks from two entries to one. -/
theorem C6_counterexample :
    parse_duplicate_files [("ab07.zip").data, ("abc09.zip").data, ("ab005.zip").data]
        = some [("abc09.zip").data, ("ab07.zip").data] ∧
      parse_duplicate_files [("abc09.zip").data, ("ab07.zip").data]
        = some [("abc09.zip").data] ∧
      ([("abc09.zip").data] : List Str) ≠ [("abc09.zip").data, ("ab07.zip").data] := by
  refine ⟨by decide, by decide, by decide⟩

/-- C6 (amended): on a uniform well-formed listing (one shared entry
length, `{prefix}{dd}.zip` shape, metacharacter-free prefixes) duplicate
resolution is idempotent: resolving the resolver's output returns it
unchanged.  (For mixed-length listings idempotence fails, as the
counterexample shows.) -/
theorem C6_uniform_idempotent {n : ℕ} {L R : List Str}
    (hL : ∀ e ∈ L, entryOk n e = true)
    (h : parse_duplicate_files L = some R) :
    parse_duplicate_files R = some R := by
  have hRL := resolve_subset h
  have hRndp := resolve_nodup h
  have hRok : ∀ e ∈ R, entryOk n e = true := fun e he => hL e (hRL e he)
  have hchar := resolve_uniform_mem hL h
  have hself : ∀ e ∈ R, processEntry R e = some e := by
    intro e he
    obtain ⟨e', hpe', he'R, hstrip, _, hsing⟩ := processEntry_uniform hRok he
    have hgrp : ∀ x ∈ R.filter (fun x => stripOf x == stripOf e), x = e := by
      intro x hx
      have hxR := List.mem_of_mem_filter hx
      have hxs : stripOf x = stripOf e := beq_iff_eq.mp (List.mem_filter.mp hx).2
      obtain ⟨hxL, hxmax⟩ := (hchar x).mp hxR
      obtain ⟨heL, hemax⟩ := (hchar e).mp he
      have h1 : counterOf x ≤ counterOf e := hemax x hxL hxs
      have h2 : counterOf e ≤ counterOf x := hxmax e heL hxs.symm
      exact entry_unique (hL x hxL) (hL e heL) hxs (by omega)
    have hle : (R.filter (fun x => stripOf x == stripOf e)).length ≤ 1 :=
      nodup_all_eq_length_le_one (hRndp.filter _) hgrp
    rw [hpe', hsing hle]
  rw [parse_duplicate_files, optMap_some_of (g := id) (fun a ha => hself a ha)]
  simp only [List.map_id, Option.map_some', dedupFirst_eq_self hRndp]

/-- Witness for `C6_uniform_idempotent` at the spec's example listing. -/
theorem C6_witness :
    parse_duplicate_files [("abcXYZ03.zip").data] = some [("abcXYZ03.zip").data] :=
  C6_uniform_idempotent (n := 12)
    (L := [("abcXYZ01.zip").data, ("abcXYZ03.zip").data, ("abcXYZ02.zip").data])
    (by decide) (by decide)

/-- C10: every entry of the resolver's output comes from the input listing
(nothing is fabricated or rewritten), and no entry occurs twice (the
output passes through `set`). -/
theorem C10_output_subset_nodup {L R : List Str}
    (h : parse_duplicate_files L = some R) :
    (∀ e ∈ R, e ∈ L) ∧ R.Nodup :=
  ⟨resolve_subset h, resolve_nodup h⟩

/-- Witness for `C10_output_subset_nodup`. -/
theorem C10_witness :
    (∀ e ∈ [("abc09.zip").data, ("ab07.zip").data],
        e ∈ [("ab07.zip").data, ("abc09.zip").data, ("ab005.zip").data]) ∧
      ([("abc09.zip").data, ("ab07.zip").data] : List Str).Nodup :=
  C10_output_subset_nodup (by decide)

/-! ## Natural-order key lemmas -/

theorem dropWhile_length_le {p : Char → Bool} : ∀ (l : Str),
    (l.dropWhile p).length ≤ l.length := by
  intro l
  induction l with
  | nil => simp
  | cons c rest ih =>
    by_cases h : p c
    · simp only [List.dropWhile_cons, h, if_true]
      simp only [List.length_cons]
      omega
    · simp [List.dropWhile_cons, h]

theorem dropWhile_head_false {p : Char → Bool} : ∀ {s : Str} {x : Char} {xs : Str},
    s.dropWhile p = x :: xs → p x = false := by
  intro s
  induction s with
  | nil => intro x xs h; exact absurd h (by simp)
  | cons c rest ih =>
    intro x xs h
    by_cases hc : p c
    · rw [List.dropWhile_cons, if_pos hc] at h
      exact ih h
    · rw [List.dropWhile_cons, if_neg hc] at h
      cases h
      exact Bool.eq_false_iff.mpr hc

theorem takeWhile_all {p : Char → Bool} (l : Str) : (l.takeWhile p).all p = true :=
  List.all_eq_true.mpr fun _ hc => List.mem_takeWhile_imp hc

theorem splitDigitsAux_alt : ∀ (fuel : Nat) (s : Str), s.length < fuel →
    AltChunks (splitDigitsAux fuel s) := by
  intro fuel
  induction fuel with
  | zero => intro s h; omega
  | succ f ih =>
    intro s hs
    show AltChunks
      (match s.dropWhile (fun c => !isDigitC c) with
       | [] => [s.takeWhile (fun c => !isDigitC c)]
       | _ :: _ => s.takeWhile (fun c => !isDigitC c) ::
           ((s.dropWhile (fun c => !isDigitC c)).takeWhile isDigitC) ::
             splitDigitsAux f ((s.dropWhile (fun c => !isDigitC c)).dropWhile isDigitC))
    cases ht : s.dropWhile (fun c => !isDigitC c) with
    | nil => exact AltChunks.last _ (takeWhile_all s)
    | cons x xs =>
      have hx : isDigitC x = true := by
        have := dropWhile_head_false ht
        simp only [Bool.not_eq_false'] at this
        exact this
      refine AltChunks.cons _ _ _ (takeWhile_all s) ?_ (takeWhile_all _) ?_
      · rw [List.takeWhile_cons, if_pos hx]
        simp
      · apply ih
        have h1 : ((x :: xs).dropWhile isDigitC).length ≤ xs.length := by
          rw [List.dropWhile_cons, if_pos hx]
          exact dropWhile_length_le xs
        have h2 : (x :: xs).length ≤ s.length := ht ▸ dropWhile_length_le s
        simp only [List.length_cons] at h2
        omega

/-- C7: the cycle/pass key function splits every key into alternating
non-digit and digit chunks (digit chunks compared numerically via
`strtoi`, non-digit chunks lexicographically via Python string `<`), and
on the spec's examples: `"pass2" < "pass10" < "pass11"` and sorting
`["pass2", "pass10", "pass1"]` yields `["pass1", "pass2", "pass10"]`. -/
theorem C7_natural_order :
    (∀ s : Str, AltChunks (splitDigits s)) ∧
      keyListLt (sort_cycle_pass ((("pass2").data, ())))
          (sort_cycle_pass ((("pass10").data, ()))) = some true ∧
      keyListLt (sort_cycle_pass ((("pass10").data, ())))
          (sort_cycle_pass ((("pass11").data, ()))) = some true ∧
      sortedCyclePassKeys [("pass2").data, ("pass10").data, ("pass1").data]
        = [("pass1").data, ("pass2").data, ("pass10").data] := by
  refine ⟨fun s => splitDigitsAux_alt (s.length + 1) s (by omega), ?_, ?_, ?_⟩
  · decide
  · decide
  · decide
